import Mathlib

/-!
Shallow embedding of the `@satorijs/element` core
(`src/packages/element/src/index.ts`): escaping, the node model and its
constructor, serialization, the tag/attribute tokenizer and tree-building
parser, the selector engine, and the two transform variants.

Strings are modelled as Lean `String` (a wrapper around `List Char`); the
character-level workers operate on `List Char`.  JavaScript string
`replace` with a global regex of a literal pattern is modelled by one
structurally recursive pass per pattern (left-to-right, non-overlapping).  Fallible code paths
(JavaScript `TypeError` on `undefined` access) are modelled with `Option`.
-/

/-!
Each `replace` call of `escape`/`unescape` uses a global regex with a
literal pattern; its semantics is a left-to-right, non-overlapping
replacement of that one literal.  Each pass is modelled by its own
structurally recursive function.
-/

/-- `source.replace(/&/g, '&amp;')`. -/
def escAmp : List Char → List Char
  | [] => []
  | c :: rest =>
    if c = '&' then '&' :: 'a' :: 'm' :: 'p' :: ';' :: escAmp rest
    else c :: escAmp rest

/-- `.replace(/</g, '&lt;')`. -/
def escLt : List Char → List Char
  | [] => []
  | c :: rest =>
    if c = '<' then '&' :: 'l' :: 't' :: ';' :: escLt rest
    else c :: escLt rest

/-- `.replace(/>/g, '&gt;')`. -/
def escGt : List Char → List Char
  | [] => []
  | c :: rest =>
    if c = '>' then '&' :: 'g' :: 't' :: ';' :: escGt rest
    else c :: escGt rest

/-- `.replace(/"/g, '&quot;')`. -/
def escQuot : List Char → List Char
  | [] => []
  | c :: rest =>
    if c = '"' then '&' :: 'q' :: 'u' :: 'o' :: 't' :: ';' :: escQuot rest
    else c :: escQuot rest

/-- `.replace(/&lt;/g, '<')`: on a literal `&lt;` emit `<` and continue
after it (non-overlapping); otherwise move one character. -/
def unescLt : List Char → List Char
  | '&' :: 'l' :: 't' :: ';' :: rest => '<' :: unescLt rest
  | c :: rest => c :: unescLt rest
  | [] => []

/-- `.replace(/&gt;/g, '>')`. -/
def unescGt : List Char → List Char
  | '&' :: 'g' :: 't' :: ';' :: rest => '>' :: unescGt rest
  | c :: rest => c :: unescGt rest
  | [] => []

/-- `.replace(/&quot;/g, '"')`. -/
def unescQuot : List Char → List Char
  | '&' :: 'q' :: 'u' :: 'o' :: 't' :: ';' :: rest => '"' :: unescQuot rest
  | c :: rest => c :: unescQuot rest
  | [] => []

/-- `.replace(/&amp;/g, '&')`. -/
def unescAmp : List Char → List Char
  | '&' :: 'a' :: 'm' :: 'p' :: ';' :: rest => '&' :: unescAmp rest
  | c :: rest => c :: unescAmp rest
  | [] => []

/-- `escape` worker on character lists: `&`, `<`, `>` always, `"` only in
inline mode, in the source's order (`&` first). -/
def escapeData (s : List Char) (inline : Bool) : List Char :=
  let r := escGt (escLt (escAmp s))
  if inline then escQuot r else r

/-- `unescape` worker: `&lt;`, `&gt;`, `&quot;`, then `&amp;` last, in the
source's order. -/
def unescapeData (s : List Char) : List Char :=
  unescAmp (unescQuot (unescGt (unescLt s)))

/-- ASCII lowercase test, the `[a-z]` class of the `camelize` regex. -/
def isAsciiLower (c : Char) : Bool := 'a' ≤ c && c ≤ 'z'

/-- ASCII uppercase test, the `[A-Z]` class of the `hyphenate` regex. -/
def isAsciiUpper (c : Char) : Bool := 'A' ≤ c && c ≤ 'Z'

/-- cosmokit `camelize`: each `[_-][a-z]` pair becomes the uppercased
letter (left-to-right, non-overlapping). -/
def camelizeData : List Char → List Char
  | c :: d :: rest =>
    if (c == '-' || c == '_') && isAsciiLower d then d.toUpper :: camelizeData rest
    else c :: camelizeData (d :: rest)
  | s => s

/-- cosmokit `hyphenate`: each `[A-Z]` becomes `-` plus its lowercase. -/
def hyphenateData : List Char → List Char
  | [] => []
  | c :: rest =>
    if isAsciiUpper c then '-' :: c.toLower :: hyphenateData rest
    else c :: hyphenateData rest

/-- cosmokit `capitalize`: uppercase the first character. -/
def capitalizeData : List Char → List Char
  | [] => []
  | c :: rest => c.toUpper :: rest

/-- JavaScript object property assignment on a string-keyed dictionary
kept as an insertion-ordered association list: an existing key keeps its
position and gets the new value, a fresh key is appended. -/
def dictSet (d : List (String × String)) (k v : String) : List (String × String) :=
  if d.any (fun p => p.1 == k) then d.map (fun p => if p.1 == k then (k, v) else p)
  else d ++ [(k, v)]

/-- The node model: `type`, insertion-ordered `attrs`, ordered `children`
(the `Element` interface of the source). -/
inductive Element : Type where
  | mk : String → List (String × String) → List Element → Element

def Element.type : Element → String
  | .mk t _ _ => t

def Element.attrs : Element → List (String × String)
  | .mk _ a _ => a

def Element.children : Element → List Element
  | .mk _ _ c => c

namespace Element

/-- `Element.escape(source, inline)`. -/
def escape (s : String) (inline : Bool) : String := ⟨escapeData s.data inline⟩

/-- `Element.unescape(source)`. -/
def unescape (s : String) : String := ⟨unescapeData s.data⟩

/-- Attribute value of the `Element(type, attrs, children)` constructor:
JavaScript `null`/`undefined`, `true`, `false`, or a string (any other
value is stringified before reaching the model). -/
inductive AttrArg : Type where
  | nul : AttrArg
  | tru : AttrArg
  | fls : AttrArg
  | str : String → AttrArg

/-- The generic `Element(type, attrs, children)` constructor: nullable
values are skipped, `true` becomes the empty-string flag value, `false`
becomes a synthesized `no`-capitalized key with empty value, strings are
kept; children are supplied already converted (see `toElement`). -/
def make (t : String) (attrs : List (String × AttrArg)) (children : List Element) : Element :=
  .mk t
    (attrs.foldl (fun d kv =>
      match kv with
      | (_, .nul) => d
      | (k, .tru) => dictSet d k ""
      | (k, .fls) => dictSet d ("no" ++ String.mk (capitalizeData k.data)) ""
      | (k, .str s) => dictSet d k s) [])
    children

/-- `toElement`: a bare string becomes a `text` node carrying it as the
`content` attribute. -/
def toElement (s : String) : Element := make "text" [("content", .str s)] []

/-- One serialized attribute entry: ` key` when the value is the empty
string, else ` key="inline-escaped value"`, with the key hyphenated.
(The `isNullable` skip of the source is unreachable here because modelled
attribute values are always strings.) -/
def attrEntry (k v : String) : String :=
  let hk : String := ⟨hyphenateData k.data⟩
  if v == "" then " " ++ hk else " " ++ hk ++ "=\"" ++ escape v true ++ "\""

/-- Serialized attribute list, concatenated in order. -/
def attrsToStr (attrs : List (String × String)) : String :=
  attrs.foldl (fun acc kv => acc ++ attrEntry kv.1 kv.2) ""

mutual

/-- `ElementConstructor.toString`.  A `text` node whose `attrs` lack a
`content` entry makes the JavaScript code call `replace` on `undefined`
and throw; this is `none`. -/
def toString : Element → Option String
  | .mk t a c =>
    if t == "" then forestJoin c
    else if t == "text" then (List.lookup "content" a).map (fun s => escape s false)
    else if c.isEmpty then some ("<" ++ t ++ attrsToStr a ++ "/>")
    else (forestJoin c).map (fun body => "<" ++ t ++ attrsToStr a ++ ">" ++ body ++ "</" ++ t ++ ">")

/-- `this.children.join('')`: serialize every child and concatenate,
propagating a child's failure. -/
def forestJoin : List Element → Option String
  | [] => some ""
  | e :: es =>
    match toString e, forestJoin es with
    | some s, some r => some (s ++ r)
    | _, _ => none

end

end Element

/-! ## Tokenizer and parser -/

/-- JavaScript regex `\s`: the ECMAScript WhiteSpace and LineTerminator
code points — TAB, LF, VT, FF, CR, SP, NBSP, OGHAM SPACE MARK, the
EN-QUAD..HAIR-SPACE range U+2000–U+200A, LINE and PARAGRAPH SEPARATOR,
NARROW NO-BREAK SPACE, MEDIUM MATHEMATICAL SPACE, IDEOGRAPHIC SPACE and
ZWNBSP. -/
def jsWs (c : Char) : Bool :=
  c == ' ' || c == '\t' || c == '\n' || c == '\r' || c == '\x0b' || c == '\x0c' ||
  c == '\u00A0' || c == '\u1680' ||
  c == '\u2000' || c == '\u2001' || c == '\u2002' || c == '\u2003' ||
  c == '\u2004' || c == '\u2005' || c == '\u2006' || c == '\u2007' ||
  c == '\u2008' || c == '\u2009' || c == '\u200A' ||
  c == '\u2028' || c == '\u2029' || c == '\u202F' || c == '\u205F' ||
  c == '\u3000' || c == '\uFEFF'

/-- Split at the first occurrence of `stop`: chars before it and the rest
after it. -/
def splitAtChar (stop : Char) : List Char → Option (List Char × List Char)
  | [] => none
  | c :: rest =>
    if c == stop then some ([], rest)
    else (splitAtChar stop rest).map (fun p => (c :: p.1, p.2))

/-- Remove trailing `\s` characters. -/
def stripEndWs (l : List Char) : List Char := (l.reverse.dropWhile jsWs).reverse

theorem splitAtChar_rest_lt {stop : Char} : ∀ {s : List Char} {a b : List Char},
    splitAtChar stop s = some (a, b) → b.length < s.length := by
  intro s
  induction s with
  | nil => intro a b h; simp [splitAtChar] at h
  | cons c rest ih =>
    intro a b h
    simp only [splitAtChar] at h
    by_cases hc : (c == stop) = true
    · rw [if_pos hc] at h
      cases h
      simp
    · rw [if_neg hc, Option.map_eq_some'] at h
      obtain ⟨p, hp, hep⟩ := h
      cases hep
      have := ih hp
      simp only [List.length_cons]
      omega

/-- The `\s*(\/?)` tail of the attribute segment: give up one optional
final `/`, then trailing whitespace; returns the attribute text and the
self-closing flag. -/
def attrSplit (r : List Char) : List Char × Bool :=
  if r.getLast? == some '/' then (stripEndWs r.dropLast, true)
  else (stripEndWs r, false)

/-- The part of `tagRegExp` after the close group, with the close flag
already decided: `\s*`, then the greedy tag-name class `[^\s>]+`, then —
because the middle group is lazy and cannot cross `>` — everything up to
the first `>`, whose segment yields one optional final `/` and then
trailing whitespace to the last two groups (`attrSplit`).  Failures of
the later elements cannot be repaired by giving back `\s*` or tag-name
characters (the name class excludes whitespace, and the remainder after
the name succeeds exactly when a `>` follows, wherever the name ends), so
maximal munch is faithful here. -/
def matchTagFrom (close : Bool) (s2 : List Char) :
    Option ((Bool × List Char × List Char × Bool) × List Char) :=
  let s3 := s2.dropWhile jsWs
  let name := s3.takeWhile (fun c => !jsWs c && c != '>')
  if name.isEmpty then none
  else
    match splitAtChar '>' (s3.drop name.length) with
    | none => none
    | some (r, rest) =>
      let ae := attrSplit r
      some ((close, name, ae.1, ae.2), rest)

/-- Attempt `tagRegExp` = `<(\/?)\s*([^\s>]+)([^>]*?)\s*(\/?)>` anchored at
the start of the input; on success return the captured
`(close, tag name, attribute text, self-closing flag)` and the rest after
the `>`.  The optional close group is greedy: after `</` the rest of the
pattern is first tried beyond the slash; if that fails the group
backtracks to the empty match and the slash falls into the greedy
tag-name class (so `</>` matches as an opening tag named `/`). -/
def matchTagAt : List Char → Option ((Bool × List Char × List Char × Bool) × List Char)
  | '<' :: '/' :: s2 =>
    match matchTagFrom true s2 with
    | some m => some m
    | none => matchTagFrom false ('/' :: s2)
  | '<' :: s1 => matchTagFrom false s1
  | _ => none

/-- Leftmost match of `tagRegExp`: the text before the match, the captured
groups, and the rest of the input. -/
def findTag : List Char → Option (List Char × (Bool × List Char × List Char × Bool) × List Char)
  | [] => none
  | c :: rest =>
    match matchTagAt (c :: rest) with
    | some (rt, rem) => some ([], rt, rem)
    | none => (findTag rest).map (fun p => (c :: p.1, p.2.1, p.2.2))

/-- Repeated global matching of `attrRegExp` = `([^\s=]+)(?:="([^"]*)")?`:
a list of `(raw key, raw value)` pairs, a bare key having the empty
value. -/
def scanAttrsFuel : Nat → List Char → List (List Char × List Char)
  | 0, _ => []
  | _ + 1, [] => []
  | fuel + 1, c :: rest =>
    if jsWs c || c == '=' then scanAttrsFuel fuel rest
    else
      let keyTail := rest.takeWhile (fun d => !jsWs d && d != '=')
      match rest.drop keyTail.length with
      | '=' :: '"' :: r2 =>
        match splitAtChar '"' r2 with
        | some (v, r3) => (c :: keyTail, v) :: scanAttrsFuel fuel r3
        | none => (c :: keyTail, []) :: scanAttrsFuel fuel ('=' :: '"' :: r2)
      | r1 => (c :: keyTail, []) :: scanAttrsFuel fuel r1

/-- The fuel argument is an upper bound on the input length; every
recursive call strictly shrinks the input, so `l.length` is always
enough. -/
def scanAttrs (l : List Char) : List (List Char × List Char) :=
  scanAttrsFuel l.length l

/-- A parser token: a text run, or a tag with name, closing flag,
self-closing flag, and attribute dictionary. -/
inductive PTok : Type where
  | text : String → PTok
  | tag : String → Bool → Bool → List (String × String) → PTok

/-- Build the `Token` of one tag match: keys camelized, values unescaped,
assigned in match order. -/
def tagTokOf : Bool × List Char × List Char × Bool → PTok
  | (close, name, attrText, empty) =>
    .tag ⟨name⟩ close empty
      ((scanAttrs attrText).foldl
        (fun d kv => dictSet d ⟨camelizeData kv.1⟩ (Element.unescape ⟨kv.2⟩)) [])

theorem length_dropWhile_le (p : Char → Bool) (l : List Char) :
    (l.dropWhile p).length ≤ l.length := by
  induction l with
  | nil => simp
  | cons c rest ih =>
    rw [List.dropWhile_cons]
    split
    · simp only [List.length_cons]; omega
    · simp

theorem matchTagFrom_rest_lt {close : Bool} {s2 : List Char}
    {rt : Bool × List Char × List Char × Bool} {rem : List Char}
    (h : matchTagFrom close s2 = some (rt, rem)) : rem.length < s2.length := by
  rw [matchTagFrom] at h
  split at h
  · exact absurd h (by simp)
  · split at h
    · exact absurd h (by simp)
    next r rest hsplit =>
      cases h
      have h1 := splitAtChar_rest_lt hsplit
      have h2 := length_dropWhile_le jsWs s2
      have h3 : ((s2.dropWhile jsWs).drop
          ((s2.dropWhile jsWs).takeWhile
            (fun c => !jsWs c && c != '>')).length).length ≤
          (s2.dropWhile jsWs).length := by
        rw [List.length_drop]
        omega
      omega

theorem matchTagAt_rest_lt {s : List Char} {rt : Bool × List Char × List Char × Bool}
    {rem : List Char} (h : matchTagAt s = some (rt, rem)) : rem.length < s.length := by
  rw [matchTagAt.eq_def] at h
  split at h
  next s2 =>
    rcases hm : matchTagFrom true s2 with _ | m
    · rw [hm] at h
      simp only [] at h
      have := matchTagFrom_rest_lt h
      simp only [List.length_cons] at *
      omega
    · rw [hm] at h
      simp only [Option.some.injEq] at h
      subst h
      have := matchTagFrom_rest_lt hm
      simp only [List.length_cons]
      omega
  next s1 =>
    have := matchTagFrom_rest_lt h
    simp only [List.length_cons]
    omega
  next => exact absurd h (by simp)

theorem findTag_rest_lt : ∀ {s pre : List Char} {rt : Bool × List Char × List Char × Bool}
    {rem : List Char}, findTag s = some (pre, rt, rem) → rem.length < s.length := by
  intro s
  induction s with
  | nil => intro pre rt rem h; simp [findTag] at h
  | cons c rest ih =>
    intro pre rt rem h
    simp only [findTag] at h
    cases hmt : matchTagAt (c :: rest) with
    | some p =>
      obtain ⟨rt', rem'⟩ := p
      rw [hmt] at h
      simp only [Option.some.injEq, Prod.mk.injEq] at h
      obtain ⟨-, -, h3⟩ := h
      subst h3
      exact matchTagAt_rest_lt hmt
    | none =>
      rw [hmt] at h
      rw [Option.map_eq_some'] at h
      obtain ⟨p, hp, hep⟩ := h
      obtain ⟨pre', rt', rem'⟩ := p
      cases hep
      have := ih hp
      simp only [List.length_cons]
      omega

/-- The tokenizer loop of `parse`: repeatedly take the leftmost `tagRegExp`
match, unescape the text run before it, and continue on the rest; the
trailing text after the last match (if any) is pushed raw, without
`unescape`, exactly as in the source.  The fuel argument is an upper
bound on the input length (each match consumes at least one character),
so the exhaustion case is only reached on the empty input, where both
branches agree. -/
def tokenizeFuel : Nat → List Char → List PTok
  | 0, s => if s.isEmpty then [] else [.text ⟨s⟩]
  | fuel + 1, s =>
    match findTag s with
    | some (pre, rt, rest) =>
      (if pre.isEmpty then [] else [.text (Element.unescape ⟨pre⟩)]) ++
        tagTokOf rt :: tokenizeFuel fuel rest
    | none => if s.isEmpty then [] else [.text ⟨s⟩]

def tokenizeData (s : List Char) : List PTok :=
  tokenizeFuel s.length s

/-- Append a child to the frame at the top of the stack; `none` when the
stack is empty (the JavaScript code reads `stack[0].children` of
`undefined` and throws). -/
def appendChild : List Element → Element → Option (List Element)
  | [], _ => none
  | .mk t a c :: fs, e => some (.mk t a (c ++ [e]) :: fs)

/-- One step of the tree-building loop of `parse`.  A text token becomes a
`text` child of the top frame.  A closing token pops the stack
unconditionally (popping the last frame leaves an empty stack; `shift` on
an empty stack is a silent no-op).  An opening token is built with the
generic constructor and appended to the top frame; a non-self-closing one
becomes the new top of the stack (modelled as a fresh frame whose
accumulated children are attached when it is popped, which reproduces the
mutation-based sharing of the source). -/
def stepTok (st : List Element) : PTok → Option (List Element)
  | .text s => appendChild st (Element.toElement s)
  | .tag name close empty attrs =>
    if close then
      match st with
      | [] => some []
      | [_] => some []
      | .mk t a c :: .mk t2 a2 c2 :: fs => some (.mk t2 a2 (c2 ++ [.mk t a c]) :: fs)
    else
      let e := Element.make name (attrs.map (fun kv => (kv.1, .str kv.2))) []
      if empty then appendChild st e
      else
        match st with
        | [] => none
        | _ => some (e :: st)

/-- Collapse the remaining stack at end of input: every still-open frame
stays attached inside its parent (in the source this already happened by
mutation when the frame was opened), and the bottom (root) frame's
children are the result, `stack[stack.length - 1].children`. -/
def collapse : List Element → List Element
  | [] => []
  | f :: fs =>
    (fs.foldl (fun top next =>
      match top, next with
      | .mk t a c, .mk t2 a2 c2 => .mk t2 a2 (c2 ++ [.mk t a c])) f).children

/-- The tree-building phase of `parse` over a token list, seeded with the
synthetic root frame `Element(null)`.  `none` models the `TypeError` the
source throws when the root frame has been popped by an excess closing tag
and the stack is then used (or indexed at the end). -/
def buildTree (toks : List PTok) : Option (List Element) :=
  match toks.foldlM stepTok [Element.mk "" [] []] with
  | none => none
  | some [] => none
  | some st => some (collapse st)

/-- `Element.parse` on character data. -/
def parseData (s : List Char) : Option (List Element) := buildTree (tokenizeData s)

/-- `Element.parse(source)`: `none` models a thrown `TypeError`. -/
def Element.parse (s : String) : Option (List Element) := parseData s.data

/-! ## Selector parser and query engine -/

/-- One selector step: a type name and the combinator leading into it. -/
inductive Selector : Type where
  | mk : String → Char → Selector

def Selector.type : Selector → String
  | .mk t _ => t

def Selector.combinator : Selector → Char
  | .mk _ c => c

/-- Length of the leading run of literal spaces (the `' *'` pieces of
`combRegExp`; the pattern uses a literal space, not `\s`). -/
def spaceRun (l : List Char) : Nat := (l.takeWhile (fun c => c == ' ')).length

/-- Match `combRegExp` = `' *([ >+~]) *'` anchored at the start: returns
the captured combinator and the total match length.  A space run whose
first non-space continuation is `>`, `+` or `~` backtracks its last
position into the group; otherwise the group captures the final space of
the run. -/
def combMatchAt : List Char → Option (Char × Nat)
  | [] => none
  | c :: rest =>
    if c == ' ' then
      let run := 1 + spaceRun rest
      match (c :: rest).drop run with
      | d :: rest3 =>
        if d == '>' || d == '+' || d == '~' then some (d, run + 1 + spaceRun rest3)
        else some (' ', run)
      | [] => some (' ', run)
    else if c == '>' || c == '+' || c == '~' then some (c, 1 + spaceRun rest)
    else none

/-- `combRegExp.exec` from an explicit `lastIndex`: leftmost match at a
position not before `li`; returns `(match index, combinator, match
length)`. -/
def execCombFrom : List Char → Nat → Option (Nat × Char × Nat)
  | [], _ => none
  | c :: rest, idx =>
    match combMatchAt (c :: rest) with
    | some (comb, len) => some (idx, comb, len)
    | none => execCombFrom rest (idx + 1)

def execComb (s : List Char) (li : Nat) : Option (Nat × Char × Nat) :=
  execCombFrom (s.drop li) li

theorem combMatchAt_pos {s : List Char} {c : Char} {n : Nat}
    (h : combMatchAt s = some (c, n)) : 0 < n := by
  match s with
  | [] => simp [combMatchAt] at h
  | d :: rest =>
    rw [combMatchAt.eq_def] at h
    simp only [] at h
    split at h
    · split at h
      · split at h <;> (cases h; omega)
      · cases h; omega
    · split at h
      · cases h; omega
      · exact absurd h (by simp)

theorem execCombFrom_some : ∀ {l : List Char} {i idx : Nat} {c : Char} {n : Nat},
    execCombFrom l i = some (idx, c, n) → 0 < n ∧ l ≠ [] := by
  intro l
  induction l with
  | nil => intro i idx c n h; simp [execCombFrom] at h
  | cons d rest ih =>
    intro i idx c n h
    simp only [execCombFrom] at h
    cases hm : combMatchAt (d :: rest) with
    | some p =>
      obtain ⟨comb, len⟩ := p
      rw [hm] at h
      simp only [Option.some.injEq, Prod.mk.injEq] at h
      obtain ⟨-, -, h3⟩ := h
      subst h3
      exact ⟨combMatchAt_pos hm, by simp⟩
    | none =>
      rw [hm] at h
      exact ⟨(ih h).1, by simp⟩

theorem execComb_progress {q : List Char} {li idx : Nat} {c : Char} {n : Nat}
    (h : execComb q li = some (idx, c, n)) :
    (q.drop (idx + n)).length < q.length := by
  obtain ⟨hn, hne⟩ := execCombFrom_some h
  have hq : 0 < q.length := by
    by_contra hq
    have : q = [] := List.eq_nil_of_length_eq_zero (by omega)
    subst this
    simp [List.drop_nil] at hne
  rw [List.length_drop]
  omega

/-- One comma-separated alternative of `parseSelector`, with the stateful
`lastIndex` of the module-level global regex threaded through explicitly
(the source reuses one regex object whose `lastIndex` survives the
re-slicing of `query`, which can make it skip over combinators). -/
def parseSelFuel : Nat → List Char → Nat → Char → List Selector
  | 0, q, _, comb => [.mk ⟨q⟩ comb]
  | fuel + 1, q, li, comb =>
    match execComb q li with
    | none => [.mk ⟨q⟩ comb]
    | some (idx, c2, len) =>
      .mk ⟨q.take idx⟩ comb :: parseSelFuel fuel (q.drop (idx + len)) (idx + len) c2

/-- The fuel argument is an upper bound on the query length (each
combinator match consumes at least one character); at exhaustion the
query is empty and both branches agree. -/
def parseSelOne (q : List Char) (li : Nat) (comb : Char) : List Selector :=
  parseSelFuel q.length q li comb

/-- `input.split(',')` on character data. -/
def splitOnComma : List Char → List (List Char)
  | [] => [[]]
  | c :: rest =>
    if c == ',' then [] :: splitOnComma rest
    else
      match splitOnComma rest with
      | [] => [[c]]
      | seg :: segs => (c :: seg) :: segs

/-- JavaScript `String.trim` on the characters arising here. -/
def trimData (l : List Char) : List Char := stripEndWs (l.dropWhile jsWs)

/-- `Element.parseSelector`. -/
def Element.parseSelector (input : String) : List (List Selector) :=
  (splitOnComma input.data).map (fun q => parseSelOne (trimData q) 0 ' ')

/-- Per-node bookkeeping of the `_select` generator: walk the live groups
in order and produce, in iteration order, the nodes yielded here, the
groups forwarded to the children (`inner`), the groups queued for the next
sibling (`adjacent`), and the groups pushed back onto the level-wide
`query` list (the `~` case).  An empty group cannot arise from
`parseSelector` (every alternative has at least one step and only tails of
length ≥ 1 are re-queued); it is skipped here. -/
def procGroups (e : Element) : List (List Selector) →
    List Element × List (List Selector) × List (List Selector) × List (List Selector)
  | [] => ([], [], [], [])
  | g :: gs =>
    let r := procGroups e gs
    match g with
    | [] => r
    | [sel] =>
      let yld : List Element := if e.type == sel.type then [e] else []
      let innWhole : List (List Selector) := if sel.combinator == ' ' then [g] else []
      (yld ++ r.1, innWhole ++ r.2.1, r.2.2.1, r.2.2.2)
    | sel :: sel2 :: grest =>
      let tail := sel2 :: grest
      let innWhole : List (List Selector) := if sel.combinator == ' ' then [g] else []
      if e.type == sel.type then
        if sel2.combinator == ' ' || sel2.combinator == '>' then
          (r.1, tail :: (innWhole ++ r.2.1), r.2.2.1, r.2.2.2)
        else if sel2.combinator == '+' then
          (r.1, innWhole ++ r.2.1, tail :: r.2.2.1, r.2.2.2)
        else
          (r.1, innWhole ++ r.2.1, r.2.2.1, tail :: r.2.2.2)
      else
        (r.1, innWhole ++ r.2.1, r.2.2.1, r.2.2.2)

mutual

/-- One sibling's step of the `_select` generator, given the live set
(query merged with the incoming `adjacent` queue): the nodes yielded at or
under this node in generator order (its own yields, then the recursion
into its children with the `inner` set, subject to the generator's
empty-query early return), the `adjacent` queue for the next sibling, and
the additions pushed onto the level-wide query list. -/
def selNode : Element → List (List Selector) →
    List Element × List (List Selector) × List (List Selector)
  | .mk t a c, live =>
    let pr := procGroups (.mk t a c) live
    (pr.1 ++ (if pr.2.1.isEmpty then [] else selGo c pr.2.1 []), pr.2.2.1, pr.2.2.2)

/-- The `_select` generator: per sibling, merge the `adjacent` queue into
the live set, clear it, process the node, and continue with the (possibly
`~`-extended) query and the new `adjacent`. -/
def selGo : List Element → List (List Selector) → List (List Selector) → List Element
  | [], _, _ => []
  | e :: rest, query, adjacent =>
    let r := selNode e (query ++ adjacent)
    r.1 ++ selGo rest (query ++ r.2.2) r.2.1

end

/-- `Element.select` on an already-parsed forest. -/
def Element.select (source : List Element) (query : String) : List Element :=
  if (Element.parseSelector query).isEmpty then []
  else selGo source (Element.parseSelector query) []

/-! ## Transform engines -/

/-- `Element.Content`: a string, a single node, or a mixed array. -/
inductive Content : Type where
  | str : String → Content
  | elem : Element → Content
  | arr : List (Sum String Element) → Content

/-- `toElementArray` restricted to the shapes a rule value can return. -/
def toElementArray : Content → List Element
  | .str s => [Element.toElement s]
  | .elem e => [e]
  | .arr l => l.map (fun x => match x with | .inl s => Element.toElement s | .inr e => e)

/-- A rule value: `boolean | Content`.  Rule callables are outside this
model (the claims under consideration involve none: the relevant
counterexamples use only booleans, and the async-equivalence claim
explicitly restricts itself to non-callable rules). -/
inductive Transformer : Type where
  | bool : Bool → Transformer
  | content : Content → Transformer

/-- `rules[element.type] ?? rules.default ?? true`. -/
def resolveRule (rules : List (String × Transformer)) (t : String) : Transformer :=
  match List.lookup t rules with
  | some r => r
  | none =>
    match List.lookup "default" rules with
    | some r => r
    | none => .bool true

/-- The dictionary copy performed by `Element(type, attrs, ...)` when
`transform` rebuilds a node from existing string-valued attrs. -/
def copyAttrs (t : String) (a : List (String × String)) (c : List Element) : Element :=
  Element.make t (a.map (fun kv => (kv.1, .str kv.2))) c

mutual

/-- One `forEach` iteration of the synchronous `transform` for one
element: in the `result === true` branch the destructured `children`
binding shadows the output array, so the freshly built node is pushed
onto the *input element's own* `children` (a mutation), not onto the
output.  Returns the contribution to the (outer) output array and the
state of this input element after the call. -/
def transformStep (rules : List (String × Transformer)) : Element → List Element × Element
  | .mk t a c =>
    match resolveRule rules t with
    | .bool true =>
      let sub := transformCore rules c
      ([], Element.mk t a (sub.2 ++ [copyAttrs t a sub.1]))
    | .bool false => ([], .mk t a c)
    | .content cont => (toElementArray cont, .mk t a c)

/-- The synchronous `Element.transform` over a sibling list, modelled
together with its effect on the input: the first component is the
returned output array (only replacement splices reach it), the second is
the state of the input forest after the call. -/
def transformCore (rules : List (String × Transformer)) : List Element → List Element × List Element
  | [] => ([], [])
  | e :: es =>
    let s := transformStep rules e
    let rest := transformCore rules es
    (s.1 ++ rest.1, s.2 :: rest.2)

end

/-- The value returned by `Element.transform` on a forest. -/
def Element.transform (source : List Element) (rules : List (String × Transformer)) : List Element :=
  (transformCore rules source).1

/-- `Element.transform` on a source string (parsed first). -/
def Element.transformStr (source : String) (rules : List (String × Transformer)) :
    Option (List Element) :=
  (Element.parse source).map (fun es => Element.transform es rules)

mutual

/-- One element's resolved contribution inside `transformAsync` under
non-callable rules: with no suspension points `Promise.all` resolves to
the per-sibling arrays in input order, flattened one level; kept nodes
are rebuilt with recursively transformed children. -/
def Element.transformAsyncOne : Element → List (String × Transformer) → List Element
  | .mk t a c, rules =>
    match resolveRule rules t with
    | .bool true => [copyAttrs t a (Element.transformAsync c rules)]
    | .bool false => []
    | .content cont => toElementArray cont

/-- `Element.transformAsync` on a forest, under non-callable rules. -/
def Element.transformAsync : List Element → List (String × Transformer) → List Element
  | [], _ => []
  | e :: es, rules => Element.transformAsyncOne e rules ++ Element.transformAsync es rules

end

/-! ## Claim theorems: concrete evaluations -/

/-- Claim C1, evaluated on the code: the claim states that
`transform('<a/><b/>', rules)` with rules mapping `a` to drop and default
to keep returns exactly one freshly built `b` element.  On the code,
`<a/>` and `<b/>` tokenize as *open* tags named `a/` and `b/` (the greedy
tag-name class of `tagRegExp` swallows the slash), so the parse is a
nested forest; and in `transform` the destructured `children` shadows the
output array, so kept nodes never reach the output: the call returns the
empty forest, not one `b` node. -/
theorem claim_C1_eval :
    Element.parse "<a/><b/>" = some [.mk "a/" [] [.mk "b/" [] []]] ∧
    Element.transformStr "<a/><b/>" [("a", .bool false), ("default", .bool true)] = some [] :=
  ⟨rfl, rfl⟩

/-- Claim C2, evaluated on the code: the claim states that the synchronous
transform never modifies the input forest.  On the code, transforming the
one-element forest `[Element('b')]` with the empty rule set (default keep)
pushes a fresh copy of `b` onto the *input* `b`'s own children: after the
call the input forest differs from its initial state. -/
theorem claim_C2_eval :
    (transformCore [] [Element.mk "b" [] []]).2 = [Element.mk "b" [] [Element.mk "b" [] []]] ∧
    [Element.mk "b" [] [Element.mk "b" [] []]] ≠ [Element.mk "b" [] []] :=
  ⟨rfl, by simp⟩

/-- Claim C4, evaluated on the code: the claim states that with
non-callable rules `transformAsync` resolves to the same forest as the
synchronous `transform`.  On the forest `[Element('b')]` with the empty
rule set, `transformAsync` returns the rebuilt `b` node but the
synchronous `transform` returns the empty array (its kept nodes are lost
to the shadowed `children` push), so the two differ. -/
theorem claim_C4_eval :
    Element.transformAsync [Element.mk "b" [] []] [] = [Element.mk "b" [] []] ∧
    Element.transform [Element.mk "b" [] []] [] = [] ∧
    Element.transformAsync [Element.mk "b" [] []] [] ≠ Element.transform [Element.mk "b" [] []] [] := by
  refine ⟨rfl, rfl, ?_⟩
  intro h
  rw [show Element.transformAsync [Element.mk "b" [] []] [] = [Element.mk "b" [] []] from rfl] at h
  rw [show Element.transform [Element.mk "b" [] []] [] = [] from rfl] at h
  simp at h

/-- Claim C7: boolean attribute values are normalized at construction and
serialized as flags: `Element('a', attrs with disabled true)` serializes
to `<a disabled/>` and with `disabled` false to `<a no-disabled/>` (the
synthesized `noDisabled` key hyphenated on the wire). -/
theorem claim_C7 :
    Element.toString (Element.make "a" [("disabled", .tru)] []) = some "<a disabled/>" ∧
    Element.toString (Element.make "a" [("disabled", .fls)] []) = some "<a no-disabled/>" :=
  ⟨rfl, rfl⟩

/-- Claim C8, evaluated on the code: the claim states that on the forest
parsed from `<a><b><c/></b></a>`, `select` with `a c` returns the one `c`
node and with `a > c` the empty array.  On the code, `<c/>` tokenizes as
an open tag named `c/`, so the parsed forest contains no node of type `c`
at all and *both* queries return the empty array — the query engine's
descendant search finds nothing to match. -/
theorem claim_C8_eval :
    Element.parse "<a><b><c/></b></a>" = some [.mk "a" [] [.mk "b" [] [.mk "c/" [] []]]] ∧
    Element.select [.mk "a" [] [.mk "b" [] [.mk "c/" [] []]]] "a c" = [] ∧
    Element.select [.mk "a" [] [.mk "b" [] [.mk "c/" [] []]]] "a > c" = [] :=
  ⟨rfl, rfl, rfl⟩

/-- Claim C9, evaluated on the code: the claim states that on the sibling
list parsed from `<a/><b/><c/>`, `select` with `a + b` returns the `b`
node and with `a + c` the empty array.  On the code, all three tags
tokenize as open tags named `a/`, `b/`, `c/`, so the parse is a nested
chain with no sibling pair at all and no node typed `a`, `b` or `c`; both
queries return the empty array. -/
theorem claim_C9_eval :
    Element.parse "<a/><b/><c/>" = some [.mk "a/" [] [.mk "b/" [] [.mk "c/" [] []]]] ∧
    Element.select [.mk "a/" [] [.mk "b/" [] [.mk "c/" [] []]]] "a + b" = [] ∧
    Element.select [.mk "a/" [] [.mk "b/" [] [.mk "c/" [] []]]] "a + c" = [] :=
  ⟨rfl, rfl, rfl⟩

/-- Claim C10: serializing a `text` node whose attrs have no `content`
entry throws (non-inline escaping is applied to the absent value, `none`
here), while every text node whose `content` attribute is a string
serializes to the non-inline-escaped content without throwing. -/
theorem claim_C10 :
    Element.toString (Element.make "text" [] []) = none ∧
    ∀ (e : Element) (s : String), Element.type e = "text" →
      List.lookup "content" (Element.attrs e) = some s →
      Element.toString e = some (Element.escape s false) := by
  refine ⟨rfl, ?_⟩
  intro e s ht hc
  obtain ⟨t, a, c⟩ := e
  simp only [Element.type] at ht
  subst ht
  simp only [Element.attrs] at hc
  rw [Element.toString]
  simp [hc]

/-- Witness for claim C10 at a concrete text node with content. -/
theorem claim_C10_witness :
    Element.toString (Element.make "text" [("content", .str "hi")] []) =
      some (Element.escape "hi" false) :=
  claim_C10.2 (Element.make "text" [("content", .str "hi")] []) "hi" rfl rfl

/-- Counterexample to claim C3 as stated: `parse` does *not* return a
forest for every input string.  On `</a>` the closing tag pops the root
frame; the final `stack[stack.length - 1].children` read then throws
(`none` in the model). -/
theorem claim_C3_counterexample : Element.parse "</a>" = none := rfl

/-- Counterexample to claim C5 as stated: the forest consisting of the
single constructor-built node `Element('a')` serializes to `<a/>`, but
parsing `<a/>` yields a node of type `a/` (the greedy tag-name class of
`tagRegExp` swallows the slash when a childless node has no attributes),
which is not structurally equal to the original node. -/
theorem claim_C5_counterexample :
    Element.toString (Element.make "a" [] []) = some "<a/>" ∧
    Element.parse "<a/>" = some [Element.mk "a/" [] []] ∧
    Element.mk "a/" [] [] ≠ Element.make "a" [] [] := by
  refine ⟨rfl, rfl, ?_⟩
  intro h
  rw [show Element.make "a" [] [] = Element.mk "a" [] [] from rfl] at h
  simp [Element.mk.injEq] at h

/-! ## Escaper round-trip -/

theorem escAmp_append (a b : List Char) : escAmp (a ++ b) = escAmp a ++ escAmp b := by
  induction a with
  | nil => rfl
  | cons c t ih =>
    simp only [List.cons_append, escAmp]
    split <;> simp [ih]

theorem escLt_append (a b : List Char) : escLt (a ++ b) = escLt a ++ escLt b := by
  induction a with
  | nil => rfl
  | cons c t ih =>
    simp only [List.cons_append, escLt]
    split <;> simp [ih]

theorem escGt_append (a b : List Char) : escGt (a ++ b) = escGt a ++ escGt b := by
  induction a with
  | nil => rfl
  | cons c t ih =>
    simp only [List.cons_append, escGt]
    split <;> simp [ih]

theorem escQuot_append (a b : List Char) : escQuot (a ++ b) = escQuot a ++ escQuot b := by
  induction a with
  | nil => rfl
  | cons c t ih =>
    simp only [List.cons_append, escQuot]
    split <;> simp [ih]

/-- The escaped image of one character. -/
def eChar (c : Char) (inline : Bool) : List Char :=
  if c = '&' then "&amp;".data
  else if c = '<' then "&lt;".data
  else if c = '>' then "&gt;".data
  else if c = '"' && inline then "&quot;".data
  else [c]

theorem escapeData_cons (c : Char) (t : List Char) (i : Bool) :
    escapeData (c :: t) i = eChar c i ++ escapeData t i := by
  by_cases h1 : c = '&'
  · subst h1
    cases i <;>
      simp [escapeData, eChar, escAmp, escLt_append, escGt_append, escQuot_append] <;> rfl
  · by_cases h2 : c = '<'
    · subst h2
      cases i <;>
        simp [escapeData, eChar, escAmp, escLt, escGt_append, escQuot_append] <;> rfl
    · by_cases h3 : c = '>'
      · subst h3
        cases i <;>
          simp [escapeData, eChar, escAmp, escLt, escGt, escQuot_append] <;> rfl
      · by_cases h4 : c = '"'
        · subst h4
          cases i <;>
            simp [escapeData, eChar, escAmp, escLt, escGt, escQuot, h1, h2, h3]
        · cases i <;>
            simp [escapeData, eChar, escAmp, escLt, escGt, escQuot, h1, h2, h3, h4]

theorem unescLt_cons_ne {c : Char} (t : List Char) (h : c ≠ '&') :
    unescLt (c :: t) = c :: unescLt t := by
  rw [unescLt.eq_def]
  split
  next heq => rw [List.cons.injEq] at heq; exact absurd heq.1 h
  next c2 t2 heq => rw [List.cons.injEq] at heq; rw [heq.1, heq.2]
  next heq => exact absurd heq (by simp)

theorem unescGt_cons_ne {c : Char} (t : List Char) (h : c ≠ '&') :
    unescGt (c :: t) = c :: unescGt t := by
  rw [unescGt.eq_def]
  split
  next heq => rw [List.cons.injEq] at heq; exact absurd heq.1 h
  next c2 t2 heq => rw [List.cons.injEq] at heq; rw [heq.1, heq.2]
  next heq => exact absurd heq (by simp)

theorem unescQuot_cons_ne {c : Char} (t : List Char) (h : c ≠ '&') :
    unescQuot (c :: t) = c :: unescQuot t := by
  rw [unescQuot.eq_def]
  split
  next heq => rw [List.cons.injEq] at heq; exact absurd heq.1 h
  next c2 t2 heq => rw [List.cons.injEq] at heq; rw [heq.1, heq.2]
  next heq => exact absurd heq (by simp)

theorem unescAmp_cons_ne {c : Char} (t : List Char) (h : c ≠ '&') :
    unescAmp (c :: t) = c :: unescAmp t := by
  rw [unescAmp.eq_def]
  split
  next heq => rw [List.cons.injEq] at heq; exact absurd heq.1 h
  next c2 t2 heq => rw [List.cons.injEq] at heq; rw [heq.1, heq.2]
  next heq => exact absurd heq (by simp)

theorem unescLt_amp (x : List Char) :
    unescLt ('&' :: 'a' :: 'm' :: 'p' :: ';' :: x) = '&' :: 'a' :: 'm' :: 'p' :: ';' :: unescLt x := rfl

theorem unescGt_amp (x : List Char) :
    unescGt ('&' :: 'a' :: 'm' :: 'p' :: ';' :: x) = '&' :: 'a' :: 'm' :: 'p' :: ';' :: unescGt x := rfl

theorem unescQuot_amp (x : List Char) :
    unescQuot ('&' :: 'a' :: 'm' :: 'p' :: ';' :: x) =
      '&' :: 'a' :: 'm' :: 'p' :: ';' :: unescQuot x := rfl

theorem unescAmp_amp (x : List Char) :
    unescAmp ('&' :: 'a' :: 'm' :: 'p' :: ';' :: x) = '&' :: unescAmp x := rfl

theorem unescLt_lt (x : List Char) :
    unescLt ('&' :: 'l' :: 't' :: ';' :: x) = '<' :: unescLt x := rfl

theorem unescLt_gt (x : List Char) :
    unescLt ('&' :: 'g' :: 't' :: ';' :: x) = '&' :: 'g' :: 't' :: ';' :: unescLt x := rfl

theorem unescGt_gt (x : List Char) :
    unescGt ('&' :: 'g' :: 't' :: ';' :: x) = '>' :: unescGt x := rfl

theorem unescLt_quot (x : List Char) :
    unescLt ('&' :: 'q' :: 'u' :: 'o' :: 't' :: ';' :: x) =
      '&' :: 'q' :: 'u' :: 'o' :: 't' :: ';' :: unescLt x := rfl

theorem unescGt_quot (x : List Char) :
    unescGt ('&' :: 'q' :: 'u' :: 'o' :: 't' :: ';' :: x) =
      '&' :: 'q' :: 'u' :: 'o' :: 't' :: ';' :: unescGt x := rfl

theorem unescQuot_quot (x : List Char) :
    unescQuot ('&' :: 'q' :: 'u' :: 'o' :: 't' :: ';' :: x) = '"' :: unescQuot x := rfl

/-- One escaped block unescapes back to its character, whatever follows:
the unescape pattern that matches at a block start consumes exactly the
block, every other unescape pattern mismatches within the block, and
restored characters can never start an unescape pattern (all patterns
start with `&`, and a literal `&` always escapes to `&amp;`). -/
theorem unesc_block (c : Char) (i : Bool) (x : List Char) :
    unescapeData (eChar c i ++ x) = c :: unescapeData x := by
  by_cases h1 : c = '&'
  · subst h1
    rw [show eChar '&' i = '&' :: 'a' :: 'm' :: 'p' :: ';' :: [] from rfl]
    simp only [List.cons_append, List.nil_append, unescapeData, unescLt_amp, unescGt_amp,
      unescQuot_amp, unescAmp_amp]
  · by_cases h2 : c = '<'
    · subst h2
      rw [show eChar '<' i = '&' :: 'l' :: 't' :: ';' :: [] from rfl]
      simp only [List.cons_append, List.nil_append, unescapeData, unescLt_lt]
      rw [unescGt_cons_ne _ (by decide), unescQuot_cons_ne _ (by decide),
        unescAmp_cons_ne _ (by decide)]
    · by_cases h3 : c = '>'
      · subst h3
        rw [show eChar '>' i = '&' :: 'g' :: 't' :: ';' :: [] from rfl]
        simp only [List.cons_append, List.nil_append, unescapeData, unescLt_gt, unescGt_gt]
        rw [unescQuot_cons_ne _ (by decide), unescAmp_cons_ne _ (by decide)]
      · by_cases h4 : c = '"' ∧ i = true
        · obtain ⟨h4c, h4i⟩ := h4
          subst h4c
          subst h4i
          rw [show eChar '"' true = '&' :: 'q' :: 'u' :: 'o' :: 't' :: ';' :: [] from rfl]
          simp only [List.cons_append, List.nil_append, unescapeData, unescLt_quot, unescGt_quot,
            unescQuot_quot]
          rw [unescAmp_cons_ne _ (by decide)]
        · have he : eChar c i = [c] := by
            rw [eChar, if_neg h1, if_neg h2, if_neg h3, if_neg]
            intro hq
            rw [Bool.and_eq_true, decide_eq_true_iff] at hq
            exact h4 ⟨hq.1, hq.2⟩
          rw [he]
          simp only [List.cons_append, List.nil_append, unescapeData]
          rw [unescLt_cons_ne _ h1, unescGt_cons_ne _ h1, unescQuot_cons_ne _ h1,
            unescAmp_cons_ne _ h1]

theorem unescape_escapeData (s : List Char) (i : Bool) :
    unescapeData (escapeData s i) = s := by
  induction s with
  | nil => cases i <;> rfl
  | cons c t ih => rw [escapeData_cons, unesc_block, ih]

/-- Claim C6: for every string and both inline modes,
`unescape(escape(s, inline))` returns `s`; the unescape order (`&lt;`,
`&gt;`, `&quot;`, then `&amp;` last) never lets the first three rules
consume an escaped-ampersand sequence prematurely. -/
theorem claim_C6 (s : String) (inline : Bool) :
    Element.unescape (Element.escape s inline) = s := by
  obtain ⟨d⟩ := s
  show String.mk (unescapeData (escapeData d inline)) = String.mk d
  rw [unescape_escapeData]

/-! ## Lenient parsing under balanced closing tags -/

/-- A closing-tag token. -/
def isCloseTok : PTok → Bool
  | .tag _ close _ _ => close
  | .text _ => false

/-- A non-self-closing opening-tag token (the only kind pushed onto the
stack). -/
def isOpenTok : PTok → Bool
  | .tag _ close empty _ => !close && !empty
  | .text _ => false

/-- Running the stack depth (starting from `d` frames): every prefix of
the token list must keep at least one frame open, i.e. a closing tag is
only taken at depth at least two, so the root frame is never popped. -/
def depthOk : Nat → List PTok → Bool
  | _, [] => true
  | d, t :: ts =>
    if isCloseTok t then decide (1 < d) && depthOk (d - 1) ts
    else if isOpenTok t then depthOk (d + 1) ts
    else depthOk d ts

theorem foldlM_stepTok_ok : ∀ (toks : List PTok) (st : List Element), st ≠ [] →
    depthOk st.length toks = true →
    ∃ st', List.foldlM stepTok st toks = some st' ∧ st' ≠ [] := by
  intro toks
  induction toks with
  | nil =>
    intro st hne _
    exact ⟨st, rfl, hne⟩
  | cons t ts ih =>
    intro st hne hd
    cases st with
    | nil => exact absurd rfl hne
    | cons f fs =>
      cases t with
      | text s =>
        simp [depthOk, isCloseTok, isOpenTok] at hd
        obtain ⟨t0, a0, c0⟩ := f
        obtain ⟨st', hfold, hne'⟩ := ih (Element.mk t0 a0 (c0 ++ [Element.toElement s]) :: fs)
          (by simp) (by simpa using hd)
        refine ⟨st', ?_, hne'⟩
        rw [List.foldlM_cons]
        rw [show stepTok (Element.mk t0 a0 c0 :: fs) (PTok.text s) =
          some (Element.mk t0 a0 (c0 ++ [Element.toElement s]) :: fs) from rfl]
        simpa using hfold
      | tag name close empty attrs =>
        cases close with
        | true =>
          simp [depthOk, isCloseTok] at hd
          obtain ⟨hgt, hd⟩ := hd
          cases fs with
          | nil => simp at hgt
          | cons g fs' =>
            obtain ⟨t1, a1, c1⟩ := f
            obtain ⟨t2, a2, c2⟩ := g
            obtain ⟨st', hfold, hne'⟩ :=
              ih (Element.mk t2 a2 (c2 ++ [Element.mk t1 a1 c1]) :: fs')
                (by simp) (by simpa using hd)
            refine ⟨st', ?_, hne'⟩
            rw [List.foldlM_cons]
            rw [show stepTok (Element.mk t1 a1 c1 :: Element.mk t2 a2 c2 :: fs')
              (PTok.tag name true empty attrs) =
              some (Element.mk t2 a2 (c2 ++ [Element.mk t1 a1 c1]) :: fs') from rfl]
            simpa using hfold
        | false =>
          cases empty with
          | true =>
            simp [depthOk, isCloseTok, isOpenTok] at hd
            obtain ⟨t0, a0, c0⟩ := f
            obtain ⟨st', hfold, hne'⟩ := ih (Element.mk t0 a0 (c0 ++
                [Element.make name (attrs.map (fun kv => (kv.1, .str kv.2))) []]) :: fs)
              (by simp) (by simpa using hd)
            refine ⟨st', ?_, hne'⟩
            rw [List.foldlM_cons]
            rw [show stepTok (Element.mk t0 a0 c0 :: fs) (PTok.tag name false true attrs) =
              some (Element.mk t0 a0 (c0 ++
                [Element.make name (attrs.map (fun kv => (kv.1, .str kv.2))) []]) :: fs) from rfl]
            simpa using hfold
          | false =>
            simp [depthOk, isCloseTok, isOpenTok] at hd
            obtain ⟨st', hfold, hne'⟩ :=
              ih (Element.make name (attrs.map (fun kv => (kv.1, .str kv.2))) [] :: f :: fs)
                (by simp) (by simpa using hd)
            refine ⟨st', ?_, hne'⟩
            rw [List.foldlM_cons]
            rw [show stepTok (f :: fs) (PTok.tag name false false attrs) =
              some (Element.make name (attrs.map (fun kv => (kv.1, .str kv.2))) [] ::
                f :: fs) from rfl]
            simpa using hfold

/-- Claim C3, amended: on every input whose token stream keeps the root
frame on the stack (in every prefix, closing tags never outnumber the
non-self-closing opening tags), `parse` throws nothing and returns the
root frame's children; the counterexample shows the unrestricted claim
fails when a closing tag pops the root. -/
theorem claim_C3_amended (s : String) (h : depthOk 1 (tokenizeData s.data) = true) :
    ∃ f, Element.parse s = some f := by
  obtain ⟨st', hfold, hne⟩ :=
    foldlM_stepTok_ok (tokenizeData s.data) [Element.mk "" [] []] (by simp) h
  refine ⟨collapse st', ?_⟩
  rw [Element.parse, parseData, buildTree, hfold]
  match st', hne with
  | f :: fs, _ => rfl

/-- Witness for the amended claim C3 on an input with both an unmatched
closing tag (which pops the open `a`) and an unclosed opening tag
(`<c>`, retained). -/
theorem claim_C3_amended_witness : ∃ f, Element.parse "<a></b><c>" = some f :=
  claim_C3_amended "<a></b><c>" (by decide)

/-! ## Round-trip: well-formedness, reference serializer, token shapes -/

mutual

/-- Induction principle threading a predicate through elements and
forests (the nested-list structure of `Element`). -/
def elemIndE (P : Element → Prop) (Q : List Element → Prop)
    (hmk : ∀ t a c, Q c → P (.mk t a c)) (hnil : Q [])
    (hcons : ∀ e es, P e → Q es → Q (e :: es)) : ∀ e : Element, P e
  | .mk t a c => hmk t a c (elemIndF P Q hmk hnil hcons c)

def elemIndF (P : Element → Prop) (Q : List Element → Prop)
    (hmk : ∀ t a c, Q c → P (.mk t a c)) (hnil : Q [])
    (hcons : ∀ e es, P e → Q es → Q (e :: es)) : ∀ f : List Element, Q f
  | [] => hnil
  | e :: es => hcons e es (elemIndE P Q hmk hnil hcons e) (elemIndF P Q hmk hnil hcons es)

end

/-- Nonempty ASCII-lowercase word. -/
def lcWord (s : String) : Bool := !s.data.isEmpty && s.data.all isAsciiLower

/-- Pairwise-distinct attribute keys. -/
def keysDistinct : List (String × String) → Bool
  | [] => true
  | (k, _) :: rest => rest.all (fun kv => kv.1 != k) && keysDistinct rest

def isTextNode (e : Element) : Bool := Element.type e == "text"

def headIsText : List Element → Bool
  | [] => false
  | e :: _ => isTextNode e

def lastIsText : List Element → Bool
  | [] => false
  | [e] => isTextNode e
  | _ :: es => lastIsText es

/-- A well-formed text node's attribute list: exactly one entry,
`content` with a nonempty value. -/
def wfTextAttrs : List (String × String) → Bool
  | [(k, s)] => k == "content" && s != ""
  | _ => false

mutual

/-- Well-formed node: a text node is exactly `content` with nonempty
string and no children; any other node has a nonempty lowercase type,
lowercase pairwise-distinct attribute keys, arbitrary attribute values,
well-formed children, and—when childless—at least one attribute (a
childless attribute-less node serializes to `<t/>` whose slash the
tag-name class of `tagRegExp` swallows). -/
def wfElem : Element → Bool
  | .mk t a c =>
    if t == "text" then wfTextAttrs a && c.isEmpty
    else
      lcWord t && a.all (fun kv => lcWord kv.1) && keysDistinct a &&
        (!c.isEmpty || !a.isEmpty) && wfForest c

/-- Well-formed sibling list: each node well-formed and no two adjacent
text nodes (their serializations would merge into a single text run). -/
def wfForest : List Element → Bool
  | [] => true
  | e :: es => wfElem e && !(isTextNode e && headIsText es) && wfForest es

end

/-- Well-formed top-level forest: additionally its last node is not a
text node (text after the final tag is pushed raw, without `unescape`). -/
def wfTop (f : List Element) : Bool := wfForest f && !lastIsText f

/-- Serialized attribute list as character data. -/
def serA : List (String × String) → List Char
  | [] => []
  | (k, v) :: rest =>
    (' ' :: hyphenateData k.data ++
      (if v == "" then [] else '=' :: '"' :: escapeData v.data true ++ ['"'])) ++ serA rest

mutual

/-- Reference serialization: the character data produced by `toString` on
a well-formed node. -/
def serE : Element → List Char
  | .mk t a c =>
    if t == "text" then escapeData ((List.lookup "content" a).getD "").data false
    else
      '<' :: t.data ++ serA a ++
        (if c.isEmpty then '/' :: '>' :: []
         else '>' :: serF c ++ '<' :: '/' :: t.data ++ ['>'])

def serF : List Element → List Char
  | [] => []
  | e :: es => serE e ++ serF es

end

mutual

/-- The token list the tokenizer recovers from a well-formed node's
serialization. -/
def toksE : Element → List PTok
  | .mk t a c =>
    if t == "text" then [.text ((List.lookup "content" a).getD "")]
    else if c.isEmpty then [.tag t false true a]
    else .tag t false false a :: (toksF c ++ [.tag t true false []])

def toksF : List Element → List PTok
  | [] => []
  | e :: es => toksE e ++ toksF es

end

theorem attrEntry_data (k v : String) :
    (Element.attrEntry k v).data = ' ' :: hyphenateData k.data ++
      (if v == "" then [] else '=' :: '"' :: escapeData v.data true ++ ['"']) := by
  rw [Element.attrEntry]
  split
  · simp [String.data_append]
  · simp [String.data_append, Element.escape]

theorem attrsToStr_data (a : List (String × String)) : (Element.attrsToStr a).data = serA a := by
  suffices h : ∀ (acc : String),
      (a.foldl (fun acc kv => acc ++ Element.attrEntry kv.1 kv.2) acc).data = acc.data ++ serA a by
    simpa using h ""
  induction a with
  | nil => intro acc; simp [serA]
  | cons kv rest ih =>
    intro acc
    obtain ⟨k, v⟩ := kv
    simp only [List.foldl_cons, ih, String.data_append, attrEntry_data, serA]
    simp

theorem toString_serE_mk (t : String) (a : List (String × String)) (c : List Element)
    (hc : wfForest c = true → Element.forestJoin c = some ⟨serF c⟩)
    (hwf : wfElem (.mk t a c) = true) :
    Element.toString (.mk t a c) = some ⟨serE (.mk t a c)⟩ := by
  rw [wfElem] at hwf
  by_cases hty : (t == "text") = true
  · rw [if_pos hty] at hwf
    have hty' : t = "text" := by rwa [beq_iff_eq] at hty
    subst hty'
    rw [Bool.and_eq_true] at hwf
    obtain ⟨hta, hce⟩ := hwf
    rcases a with _ | ⟨⟨k, s⟩, arest⟩
    · simp [wfTextAttrs] at hta
    · rcases arest with _ | ⟨a1, arest⟩
      · simp only [wfTextAttrs, beq_iff_eq, Bool.and_eq_true, bne_iff_ne] at hta
        obtain ⟨hk, hs⟩ := hta
        subst hk
        have hc0 : c = [] := by
          rcases c with _ | ⟨c0, cs⟩
          · rfl
          · simp at hce
        subst hc0
        simp [Element.toString, serE, List.lookup, Element.escape]
      · simp [wfTextAttrs] at hta
  · rw [if_neg hty] at hwf
    simp only [Bool.and_eq_true] at hwf
    obtain ⟨⟨⟨⟨hlc, hkeys⟩, hdist⟩, hnc⟩, hwfc⟩ := hwf
    have hne : ¬(t == "") = true := by
      rw [beq_iff_eq]
      intro h0
      subst h0
      simp [lcWord] at hlc
    rw [Element.toString, serE]
    rw [if_neg hne, if_neg hty, if_neg hty]
    by_cases hc0 : c.isEmpty = true
    · rw [if_pos hc0, if_pos hc0]
      refine congrArg some (String.ext ?_)
      simp [String.data_append, attrsToStr_data]
    · rw [if_neg hc0, if_neg hc0]
      rw [hc hwfc]
      refine congrArg some (String.ext ?_)
      simp [String.data_append, attrsToStr_data]

theorem forestJoin_serF_cons (e : Element) (es : List Element)
    (he : wfElem e = true → Element.toString e = some ⟨serE e⟩)
    (hes : wfForest es = true → Element.forestJoin es = some ⟨serF es⟩)
    (hwf : wfForest (e :: es) = true) :
    Element.forestJoin (e :: es) = some ⟨serF (e :: es)⟩ := by
  rw [wfForest, Bool.and_eq_true, Bool.and_eq_true] at hwf
  rw [Element.forestJoin, he hwf.1.1, hes hwf.2, serF]
  refine congrArg some (String.ext ?_)
  simp [String.data_append]

theorem toString_serE (e : Element) (h : wfElem e = true) :
    Element.toString e = some ⟨serE e⟩ :=
  elemIndE (fun e => wfElem e = true → Element.toString e = some ⟨serE e⟩)
    (fun f => wfForest f = true → Element.forestJoin f = some ⟨serF f⟩)
    toString_serE_mk (by intro _; rfl) forestJoin_serF_cons e h

theorem forestJoin_serF (f : List Element) (h : wfForest f = true) :
    Element.forestJoin f = some ⟨serF f⟩ :=
  elemIndF (fun e => wfElem e = true → Element.toString e = some ⟨serE e⟩)
    (fun f => wfForest f = true → Element.forestJoin f = some ⟨serF f⟩)
    toString_serE_mk (by intro _; rfl) forestJoin_serF_cons f h

/-! ## Character classes of escaped output; lowercase words -/

theorem eChar_no_lt (c : Char) (i : Bool) : ∀ d ∈ eChar c i, d ≠ '<' := by
  intro d hd
  rw [eChar] at hd
  split at hd
  · simp at hd; rcases hd with h | h | h | h | h <;> (subst h; decide)
  · split at hd
    · simp at hd; rcases hd with h | h | h | h <;> (subst h; decide)
    · split at hd
      · simp at hd; rcases hd with h | h | h | h <;> (subst h; decide)
      · split at hd
        · simp at hd; rcases hd with h | h | h | h | h | h <;> (subst h; decide)
        next h1 h2 h3 h4 =>
          simp at hd
          subst hd
          exact h2

theorem eChar_no_gt (c : Char) (i : Bool) : ∀ d ∈ eChar c i, d ≠ '>' := by
  intro d hd
  rw [eChar] at hd
  split at hd
  · simp at hd; rcases hd with h | h | h | h | h <;> (subst h; decide)
  · split at hd
    · simp at hd; rcases hd with h | h | h | h <;> (subst h; decide)
    · split at hd
      · simp at hd; rcases hd with h | h | h | h <;> (subst h; decide)
      · split at hd
        · simp at hd; rcases hd with h | h | h | h | h | h <;> (subst h; decide)
        next h1 h2 h3 h4 =>
          simp at hd
          subst hd
          exact h3

theorem eChar_inline_no_quot (c : Char) : ∀ d ∈ eChar c true, d ≠ '"' := by
  intro d hd
  rw [eChar] at hd
  split at hd
  · simp at hd; rcases hd with h | h | h | h | h <;> (subst h; decide)
  · split at hd
    · simp at hd; rcases hd with h | h | h | h <;> (subst h; decide)
    · split at hd
      · simp at hd; rcases hd with h | h | h | h <;> (subst h; decide)
      · split at hd
        · simp at hd; rcases hd with h | h | h | h | h | h <;> (subst h; decide)
        next h1 h2 h3 h4 =>
          simp at hd
          subst hd
          intro hq
          subst hq
          simp at h4

theorem eChar_ne_nil (c : Char) (i : Bool) : eChar c i ≠ [] := by
  rw [eChar]
  split
  · simp
  · split
    · simp
    · split
      · simp
      · split <;> simp

theorem escapeData_nil (i : Bool) : escapeData [] i = [] := by cases i <;> rfl

theorem escapeData_no_lt (s : List Char) (i : Bool) : ∀ d ∈ escapeData s i, d ≠ '<' := by
  induction s with
  | nil => rw [escapeData_nil]; intro d hd; simp at hd
  | cons c t ih =>
    rw [escapeData_cons]
    intro d hd
    rcases List.mem_append.mp hd with h | h
    · exact eChar_no_lt c i d h
    · exact ih d h

theorem escapeData_no_gt (s : List Char) (i : Bool) : ∀ d ∈ escapeData s i, d ≠ '>' := by
  induction s with
  | nil => rw [escapeData_nil]; intro d hd; simp at hd
  | cons c t ih =>
    rw [escapeData_cons]
    intro d hd
    rcases List.mem_append.mp hd with h | h
    · exact eChar_no_gt c i d h
    · exact ih d h

theorem escapeData_inline_no_quot (s : List Char) : ∀ d ∈ escapeData s true, d ≠ '"' := by
  induction s with
  | nil => intro d hd; simp [escapeData_nil] at hd
  | cons c t ih =>
    rw [escapeData_cons]
    intro d hd
    rcases List.mem_append.mp hd with h | h
    · exact eChar_inline_no_quot c d h
    · exact ih d h

theorem escapeData_ne_nil (s : List Char) (i : Bool) (h : s ≠ []) : escapeData s i ≠ [] := by
  rcases s with _ | ⟨c, t⟩
  · exact absurd rfl h
  · rw [escapeData_cons]
    intro he
    exact eChar_ne_nil c i (List.append_eq_nil.mp he).1

theorem lower_not_upper {c : Char} (h : isAsciiLower c = true) : isAsciiUpper c = false := by
  rw [isAsciiLower, Bool.and_eq_true, decide_eq_true_iff, decide_eq_true_iff] at h
  rw [isAsciiUpper]
  simp only [Bool.and_eq_false_iff, decide_eq_false_iff_not]
  right
  intro hz
  exact absurd (le_trans h.1 hz) (by decide)

theorem lower_facts {c : Char} (h : isAsciiLower c = true) :
    jsWs c = false ∧ c ≠ '>' ∧ c ≠ '<' ∧ c ≠ '/' ∧ c ≠ '=' ∧ c ≠ '-' ∧ c ≠ '_' ∧ c ≠ '&' ∧
      c ≠ '"' ∧ c ≠ ' ' := by
  rw [isAsciiLower, Bool.and_eq_true, decide_eq_true_iff, decide_eq_true_iff] at h
  obtain ⟨h1, h2⟩ := h
  refine ⟨?_, ?_, ?_, ?_, ?_, ?_, ?_, ?_, ?_, ?_⟩
  · rw [jsWs]
    simp only [Bool.or_eq_false_iff, beq_eq_false_iff_ne]
    repeat' apply And.intro
    all_goals (intro he; subst he; revert h1 h2; decide)
  all_goals (intro he; subst he; first | (revert h1; decide) | (revert h2; decide))

theorem hyphenate_lower (l : List Char) (h : ∀ c ∈ l, isAsciiLower c = true) :
    hyphenateData l = l := by
  induction l with
  | nil => rfl
  | cons c t ih =>
    rw [hyphenateData, lower_not_upper (h c (by simp))]
    simp only [Bool.false_eq_true, if_false]
    rw [ih (fun d hd => h d (by simp [hd]))]

theorem camelize_lower (l : List Char) (h : ∀ c ∈ l, isAsciiLower c = true) :
    camelizeData l = l := by
  induction l with
  | nil => rfl
  | cons c t ih =>
    rcases t with _ | ⟨d, rest⟩
    · rfl
    · rw [camelizeData]
      have hc := (lower_facts (h c (by simp)))
      rw [if_neg]
      · rw [ih (fun x hx => h x (by simp [hx]))]
      · simp only [Bool.and_eq_true, Bool.or_eq_true, beq_iff_eq]
        intro hcond
        rcases hcond.1 with h1 | h1
        · exact hc.2.2.2.2.2.1 h1
        · exact hc.2.2.2.2.2.2.1 h1

/-! ## List scanning helpers -/

theorem takeWhile_all (p : Char → Bool) : ∀ (a : List Char), (∀ c ∈ a, p c = true) →
    a.takeWhile p = a := by
  intro a
  induction a with
  | nil => intro _; rfl
  | cons c t ih =>
    intro h
    rw [List.takeWhile_cons, h c (by simp)]
    rw [ih (fun d hd => h d (by simp [hd]))]
    simp

theorem takeWhile_all_append (p : Char → Bool) : ∀ (a : List Char) (d : Char) (r : List Char),
    (∀ c ∈ a, p c = true) → p d = false → (a ++ d :: r).takeWhile p = a := by
  intro a
  induction a with
  | nil =>
    intro d r _ hd
    simp [List.takeWhile_cons, hd]
  | cons c t ih =>
    intro d r h hd
    rw [List.cons_append, List.takeWhile_cons, h c (by simp)]
    rw [ih d r (fun x hx => h x (by simp [hx])) hd]
    simp

theorem splitAtChar_all_append (stop : Char) : ∀ (a : List Char) (r : List Char),
    (∀ c ∈ a, c ≠ stop) → splitAtChar stop (a ++ stop :: r) = some (a, r) := by
  intro a
  induction a with
  | nil =>
    intro r _
    simp [splitAtChar]
  | cons c t ih =>
    intro r h
    rw [List.cons_append, splitAtChar]
    rw [if_neg (by simp [h c (by simp)])]
    rw [ih r (fun x hx => h x (by simp [hx]))]
    rfl

theorem stripEndWs_id (l : List Char) (h : ∀ d, l.getLast? = some d → jsWs d = false) :
    stripEndWs l = l := by
  rw [stripEndWs]
  rcases hl : l.reverse with _ | ⟨d, rest⟩
  · simp at hl
    simp [hl]
  · have hd : l.getLast? = some d := by
      rw [← List.head?_reverse, hl]
      rfl
    rw [List.dropWhile_cons, h d hd]
    simp only [Bool.false_eq_true, if_false]
    rw [← hl, List.reverse_reverse]

/-! ## Tag matching on serialized output -/

theorem matchTagAt_ne {c : Char} (x : List Char) (h : c ≠ '<') : matchTagAt (c :: x) = none := by
  rw [matchTagAt.eq_def]
  split
  all_goals try rfl
  all_goals (rename_i heq; rw [List.cons.injEq] at heq; exact absurd heq.1 h)

/-- With a non-slash character after `<`, the close group is empty and
the attempt is `matchTagFrom false` on everything after the `<`. -/
theorem matchTagAt_no_slash {c0 : Char} (x : List Char) (h : c0 ≠ '/') :
    matchTagAt ('<' :: c0 :: x) = matchTagFrom false (c0 :: x) := by
  rw [matchTagAt.eq_def]
  split
  next heq =>
    rw [List.cons.injEq, List.cons.injEq] at heq
    exact absurd heq.2.1 h
  next s1 heq =>
    rw [List.cons.injEq] at heq
    rw [heq.2]
  next hne1 hne2 =>
    exact absurd rfl (hne2 (c0 :: x))

theorem attrSplit_slash (attrStr : List Char)
    (hlast : ∀ d, attrStr.getLast? = some d → jsWs d = false) :
    attrSplit (attrStr ++ ['/']) = (attrStr, true) := by
  rw [attrSplit]
  rw [if_pos]
  · rw [List.dropLast_concat]
    rw [stripEndWs_id attrStr hlast]
  · rw [show (attrStr ++ ['/']).getLast? = some '/' from by
      rw [List.getLast?_append_cons]
      rfl]
    rfl

theorem attrSplit_plain (attrStr : List Char)
    (hlast : ∀ d, attrStr.getLast? = some d → jsWs d = false ∧ d ≠ '/') :
    attrSplit attrStr = (attrStr, false) := by
  rw [attrSplit]
  rw [if_neg]
  · rw [stripEndWs_id attrStr (fun d hd => (hlast d hd).1)]
  · rcases hg : attrStr.getLast? with _ | d
    · simp
    · have := (hlast d hg).2
      simp [this]

/-- `matchTagFrom` on a lowercase tag name + a `>`-free segment (empty or
starting with a space) + `>` + tail: the name is recovered exactly and
the segment is split by `attrSplit` into attribute text and self-closing
flag. -/
theorem matchTagFrom_generic (close : Bool) (nm R tail : List Char)
    (hnm : nm ≠ []) (hlow : ∀ c ∈ nm, isAsciiLower c = true)
    (hRgt : ∀ c ∈ R, c ≠ '>')
    (hRhead : R = [] ∨ ∃ r', R = ' ' :: r') :
    matchTagFrom close (nm ++ R ++ '>' :: tail) =
      some ((close, nm, (attrSplit R).1, (attrSplit R).2), tail) := by
  rcases nm with _ | ⟨c0, nmr⟩
  · exact absurd rfl hnm
  have hc0 := lower_facts (hlow c0 (by simp))
  simp only [matchTagFrom]
  simp only [List.cons_append, List.dropWhile_cons]
  rw [hc0.1]
  simp only [Bool.false_eq_true, if_false]
  have hpred : ∀ c ∈ c0 :: nmr, (!jsWs c && c != '>') = true := by
    intro c hcmem
    have hf := lower_facts (hlow c hcmem)
    simp [hf.1, hf.2.1]
  have htake : ((c0 :: nmr) ++ (R ++ '>' :: tail)).takeWhile (fun c => !jsWs c && c != '>') =
      c0 :: nmr := by
    rcases hRhead with hR0 | ⟨r', hRsp⟩
    · subst hR0
      simp only [List.nil_append]
      exact takeWhile_all_append _ (c0 :: nmr) '>' tail hpred (by simp)
    · subst hRsp
      simp only [List.cons_append]
      exact takeWhile_all_append _ (c0 :: nmr) ' ' (r' ++ '>' :: tail) hpred (by decide)
  simp only [List.append_assoc]
  rw [show c0 :: (nmr ++ (R ++ '>' :: tail)) = (c0 :: nmr) ++ (R ++ '>' :: tail) from rfl]
  rw [htake]
  simp only [List.isEmpty_cons, Bool.false_eq_true, if_false]
  rw [show ((c0 :: nmr) ++ (R ++ '>' :: tail)).drop (c0 :: nmr).length = R ++ '>' :: tail from
    List.drop_left (c0 :: nmr) (R ++ '>' :: tail)]
  rw [splitAtChar_all_append '>' R tail hRgt]

/-- The anchored `tagRegExp` match on `<` + lowercase tag name + a
`>`-free segment (empty or starting with a space) + `>` + tail: the close
group is empty, the tag name is recovered exactly, and the segment is
split by `attrSplit` into attribute text and self-closing flag. -/
theorem matchTagAt_generic (nm R tail : List Char)
    (hnm : nm ≠ []) (hlow : ∀ c ∈ nm, isAsciiLower c = true)
    (hRgt : ∀ c ∈ R, c ≠ '>')
    (hRhead : R = [] ∨ ∃ r', R = ' ' :: r') :
    matchTagAt ('<' :: (nm ++ R ++ '>' :: tail)) =
      some ((false, nm, (attrSplit R).1, (attrSplit R).2), tail) := by
  rcases nm with _ | ⟨c0, nmr⟩
  · exact absurd rfl hnm
  have hc0 := lower_facts (hlow c0 (by simp))
  rw [show ((c0 :: nmr : List Char) ++ R ++ '>' :: tail) =
    c0 :: (nmr ++ R ++ '>' :: tail) from by simp]
  rw [matchTagAt_no_slash (nmr ++ R ++ '>' :: tail) hc0.2.2.2.1]
  rw [show (c0 :: (nmr ++ R ++ '>' :: tail) : List Char) =
    (c0 :: nmr) ++ R ++ '>' :: tail from by simp]
  exact matchTagFrom_generic false (c0 :: nmr) R tail (by simp) hlow hRgt hRhead

/-- The anchored `tagRegExp` match on `</` + lowercase tag name + `>` +
tail: a closing tag with the name recovered exactly (the close branch of
the optional group succeeds, so no backtracking occurs). -/
theorem matchTagAt_close (nm tail : List Char) (hnm : nm ≠ [])
    (hlow : ∀ c ∈ nm, isAsciiLower c = true) :
    matchTagAt ('<' :: '/' :: (nm ++ '>' :: tail)) = some ((true, nm, [], false), tail) := by
  have hg := matchTagFrom_generic true nm [] tail hnm hlow (by simp) (Or.inl rfl)
  rw [List.append_nil] at hg
  show (match matchTagFrom true (nm ++ '>' :: tail) with
    | some m => some m
    | none => matchTagFrom false ('/' :: (nm ++ '>' :: tail))) = _
  rw [hg]
  rfl

theorem findTag_match {s rest : List Char} {rt : Bool × List Char × List Char × Bool}
    (h : matchTagAt s = some (rt, rest)) (hs : s ≠ []) :
    findTag s = some ([], rt, rest) := by
  rcases s with _ | ⟨c, x⟩
  · exact absurd rfl hs
  · simp only [findTag, h]

theorem findTag_skip (a : List Char) (r : List Char) (ha : ∀ c ∈ a, c ≠ '<') :
    findTag (a ++ r) = (findTag r).map (fun p => (a ++ p.1, p.2.1, p.2.2)) := by
  induction a with
  | nil =>
    simp only [List.nil_append]
    rcases h : findTag r with _ | ⟨pre, rt, rem⟩ <;> simp
  | cons c t ih =>
    rw [List.cons_append]
    simp only [findTag]
    rw [matchTagAt_ne (t ++ r) (ha c (by simp))]
    rw [ih (fun d hd => ha d (by simp [hd]))]
    rcases h : findTag r with _ | ⟨pre, rt, rem⟩ <;> simp

theorem tokenizeFuel_nil : ∀ n : Nat, tokenizeFuel n [] = []
  | 0 => rfl
  | _ + 1 => rfl

theorem tokenizeFuel_congr : ∀ (k : Nat) (s : List Char) (n m : Nat), s.length ≤ k →
    s.length ≤ n → s.length ≤ m → tokenizeFuel n s = tokenizeFuel m s := by
  intro k
  induction k with
  | zero =>
    intro s n m hk _ _
    have h0 : s = [] := List.eq_nil_of_length_eq_zero (by omega)
    subst h0
    rw [tokenizeFuel_nil, tokenizeFuel_nil]
  | succ k ih =>
    intro s n m hk hn hm
    rcases s with _ | ⟨c, x⟩
    · rw [tokenizeFuel_nil, tokenizeFuel_nil]
    · simp only [List.length_cons] at hk hn hm
      rcases n with _ | n'
      · omega
      rcases m with _ | m'
      · omega
      rw [tokenizeFuel, tokenizeFuel]
      cases hft : findTag (c :: x) with
      | none => rfl
      | some p =>
        obtain ⟨pre, rt, rest⟩ := p
        have hlt := findTag_rest_lt hft
        simp only [List.length_cons] at hlt
        dsimp only
        rw [ih rest n' m' (by omega) (by omega) (by omega)]

/-- One unfolding of the tokenizer loop, free of the fuel argument. -/
theorem tokenizeData_step (s : List Char) :
    tokenizeData s =
      match findTag s with
      | some (pre, rt, rest) =>
        (if pre.isEmpty then [] else [PTok.text (Element.unescape ⟨pre⟩)]) ++
          tagTokOf rt :: tokenizeData rest
      | none => if s.isEmpty then [] else [PTok.text ⟨s⟩] := by
  rcases s with _ | ⟨c, x⟩
  · rfl
  · rw [tokenizeData]
    show tokenizeFuel (x.length + 1) (c :: x) = _
    rw [tokenizeFuel]
    cases hft : findTag (c :: x) with
    | none => rfl
    | some p =>
      obtain ⟨pre, rt, rest⟩ := p
      have hlt := findTag_rest_lt hft
      simp only [List.length_cons] at hlt
      dsimp only
      rw [show tokenizeFuel x.length rest = tokenizeFuel rest.length rest from
        tokenizeFuel_congr x.length rest x.length rest.length (by omega) (by omega) (le_refl _)]
      rfl

/-! ## Attribute scanning on serialized attribute text -/

theorem takeWhileLenLe (p : Char → Bool) (l : List Char) :
    (l.takeWhile p).length ≤ l.length := by
  induction l with
  | nil => simp
  | cons c t ih =>
    rw [List.takeWhile_cons]
    split
    · simp only [List.length_cons]; omega
    · simp

theorem scanAttrsFuel_nil : ∀ n : Nat, scanAttrsFuel n [] = []
  | 0 => rfl
  | _ + 1 => rfl

theorem scanAttrsFuel_congr : ∀ (k : Nat) (l : List Char) (n m : Nat), l.length ≤ k →
    l.length ≤ n → l.length ≤ m → scanAttrsFuel n l = scanAttrsFuel m l := by
  intro k
  induction k with
  | zero =>
    intro l n m hk _ _
    have h0 : l = [] := List.eq_nil_of_length_eq_zero (by omega)
    subst h0
    rw [scanAttrsFuel_nil, scanAttrsFuel_nil]
  | succ k ih =>
    intro l n m hk hn hm
    rcases l with _ | ⟨c, rest⟩
    · rw [scanAttrsFuel_nil, scanAttrsFuel_nil]
    · simp only [List.length_cons] at hk hn hm
      rcases n with _ | n'
      · omega
      rcases m with _ | m'
      · omega
      rw [scanAttrsFuel, scanAttrsFuel]
      by_cases hskip : (jsWs c || c == '=') = true
      · rw [if_pos hskip, if_pos hskip]
        exact ih rest n' m' (by omega) (by omega) (by omega)
      · rw [if_neg hskip, if_neg hskip]
        dsimp only
        have hkt : (rest.takeWhile (fun d => !jsWs d && d != '=')).length ≤ rest.length :=
          takeWhileLenLe _ rest
        have hdrop : (rest.drop (rest.takeWhile (fun d => !jsWs d && d != '=')).length).length ≤
            rest.length := by
          rw [List.length_drop]; omega
        split
        next r2 heq =>
          split
          next v r3 hsp =>
            have h3 := splitAtChar_rest_lt hsp
            have h2 : r2.length + 2 ≤ rest.length := by
              rw [heq] at hdrop
              simp only [List.length_cons] at hdrop
              omega
            rw [ih r3 n' m' (by omega) (by omega) (by omega)]
          next hsp =>
            have h2 : r2.length + 2 ≤ rest.length := by
              rw [heq] at hdrop
              simp only [List.length_cons] at hdrop
              omega
            rw [ih ('=' :: '"' :: r2) n' m' (by simp; omega) (by simp; omega) (by simp; omega)]
        next r1 hexcl =>
          rw [ih (rest.drop (rest.takeWhile (fun d => !jsWs d && d != '=')).length) n' m'
            (by omega) (by omega) (by omega)]

theorem scanAttrsFuel_cons (fuel : Nat) (c : Char) (rest : List Char) :
    scanAttrsFuel (fuel + 1) (c :: rest) =
      if jsWs c || c == '=' then scanAttrsFuel fuel rest
      else
        (match rest.drop (rest.takeWhile (fun d => !jsWs d && d != '=')).length with
        | '=' :: '"' :: r2 =>
          match splitAtChar '"' r2 with
          | some (v, r3) =>
            (c :: rest.takeWhile (fun d => !jsWs d && d != '='), v) :: scanAttrsFuel fuel r3
          | none =>
            (c :: rest.takeWhile (fun d => !jsWs d && d != '='), []) ::
              scanAttrsFuel fuel ('=' :: '"' :: r2)
        | r1 => (c :: rest.takeWhile (fun d => !jsWs d && d != '='), []) ::
            scanAttrsFuel fuel r1) := rfl

theorem scanAttrs_cons_space (l : List Char) : scanAttrs (' ' :: l) = scanAttrs l := by
  rw [scanAttrs, scanAttrs]
  show scanAttrsFuel (l.length + 1) (' ' :: l) = _
  rw [scanAttrsFuel]
  rw [if_pos (by decide)]

theorem scanAttrs_key_flag (k rest : List Char) (hne : k ≠ [])
    (hlow : ∀ c ∈ k, isAsciiLower c = true)
    (hrest : rest = [] ∨ ∃ r', rest = ' ' :: r') :
    scanAttrs (k ++ rest) = (k, []) :: scanAttrs rest := by
  rcases k with _ | ⟨c0, kt⟩
  · exact absurd rfl hne
  have hc0 := lower_facts (hlow c0 (by simp))
  rw [scanAttrs]
  show scanAttrsFuel ((c0 :: kt ++ rest).length) (c0 :: (kt ++ rest)) = _
  simp only [List.length_cons, List.length_append]
  rw [show kt.length + 1 + rest.length = kt.length + rest.length + 1 from by omega]
  rw [scanAttrsFuel_cons]
  rw [if_neg (by simp [hc0.1, hc0.2.2.2.2.1])]
  have hpred : ∀ c ∈ kt, (!jsWs c && c != '=') = true := by
    intro c hc
    have hf := lower_facts (hlow c (by simp [hc]))
    simp [hf.1, hf.2.2.2.2.1]
  have htake : (kt ++ rest).takeWhile (fun d => !jsWs d && d != '=') = kt := by
    rcases hrest with h0 | ⟨r', hsp⟩
    · subst h0
      rw [List.append_nil]
      exact takeWhile_all _ kt hpred
    · subst hsp
      exact takeWhile_all_append _ kt ' ' r' hpred (by decide)
  rw [htake]
  rw [List.drop_left kt rest]
  rcases hrest with h0 | ⟨r', hsp⟩
  · subst h0
    show (c0 :: kt, []) :: scanAttrsFuel (kt.length + ([] : List Char).length) [] =
      (c0 :: kt, []) :: scanAttrs []
    rw [scanAttrsFuel_nil]
    rfl
  · subst hsp
    show (c0 :: kt, []) :: scanAttrsFuel (kt.length + (' ' :: r').length) (' ' :: r') =
      (c0 :: kt, []) :: scanAttrs (' ' :: r')
    congr 1
    rw [scanAttrs]
    simp only [List.length_cons]
    exact scanAttrsFuel_congr (kt.length + (r'.length + 1)) (' ' :: r')
      (kt.length + (r'.length + 1)) (r'.length + 1) (by simp) (by simp) (by simp)

theorem scanAttrs_key_value (k ev rest : List Char) (hne : k ≠ [])
    (hlow : ∀ c ∈ k, isAsciiLower c = true)
    (hev : ∀ c ∈ ev, c ≠ '"') :
    scanAttrs (k ++ '=' :: '"' :: ev ++ '"' :: rest) = (k, ev) :: scanAttrs rest := by
  rcases k with _ | ⟨c0, kt⟩
  · exact absurd rfl hne
  have hc0 := lower_facts (hlow c0 (by simp))
  rw [scanAttrs]
  show scanAttrsFuel ((c0 :: kt ++ '=' :: '"' :: ev ++ '"' :: rest).length)
    (c0 :: (kt ++ '=' :: '"' :: ev ++ '"' :: rest)) = _
  simp only [List.length_cons, List.length_append]
  rw [show kt.length + 1 + (ev.length + 1 + 1) + (rest.length + 1) =
    kt.length + ev.length + rest.length + 3 + 1 from by omega]
  rw [scanAttrsFuel_cons]
  rw [if_neg (by simp [hc0.1, hc0.2.2.2.2.1])]
  have hpred : ∀ c ∈ kt, (!jsWs c && c != '=') = true := by
    intro c hc
    have hf := lower_facts (hlow c (by simp [hc]))
    simp [hf.1, hf.2.2.2.2.1]
  have htake : (kt ++ '=' :: '"' :: ev ++ '"' :: rest).takeWhile
      (fun d => !jsWs d && d != '=') = kt := by
    rw [show kt ++ '=' :: '"' :: ev ++ '"' :: rest = kt ++ '=' :: ('"' :: ev ++ '"' :: rest) from
      by simp]
    exact takeWhile_all_append _ kt '=' ('"' :: ev ++ '"' :: rest) hpred (by decide)
  rw [htake]
  rw [show kt ++ '=' :: '"' :: ev ++ '"' :: rest = kt ++ ('=' :: '"' :: (ev ++ '"' :: rest)) from
    by simp]
  rw [List.drop_left kt ('=' :: '"' :: (ev ++ '"' :: rest))]
  show (match splitAtChar '"' (ev ++ '"' :: rest) with
    | some (v, r3) => (c0 :: kt, v) :: scanAttrsFuel (kt.length + ev.length + rest.length + 3) r3
    | none => (c0 :: kt, []) :: scanAttrsFuel (kt.length + ev.length + rest.length + 3)
        ('=' :: '"' :: (ev ++ '"' :: rest))) = (c0 :: kt, ev) :: scanAttrs rest
  rw [show splitAtChar '"' (ev ++ '"' :: rest) = some (ev, rest) from
    splitAtChar_all_append '"' ev rest hev]
  show (c0 :: kt, ev) :: scanAttrsFuel (kt.length + ev.length + rest.length + 3) rest =
    (c0 :: kt, ev) :: scanAttrs rest
  congr 1
  rw [scanAttrs]
  exact scanAttrsFuel_congr (kt.length + ev.length + rest.length + 3) rest
    (kt.length + ev.length + rest.length + 3) rest.length (by omega) (by omega) (le_refl _)

theorem serA_head (a : List (String × String)) :
    serA a = [] ∨ ∃ r', serA a = ' ' :: r' := by
  rcases a with _ | ⟨⟨k, v⟩, rest⟩
  · exact Or.inl rfl
  · exact Or.inr ⟨_, rfl⟩

theorem scanAttrs_serA (a : List (String × String))
    (ha : a.all (fun kv => lcWord kv.1) = true) :
    scanAttrs (serA a) = a.map (fun kv => (kv.1.data, escapeData kv.2.data true)) := by
  induction a with
  | nil => rfl
  | cons kv rest ih =>
    obtain ⟨k, v⟩ := kv
    simp only [List.all_cons, Bool.and_eq_true] at ha
    have hk : lcWord k = true := ha.1
    rw [lcWord, Bool.and_eq_true] at hk
    have hkne : k.data ≠ [] := by
      intro h0
      rw [h0] at hk
      simp at hk
    have hklow : ∀ c ∈ k.data, isAsciiLower c = true := by
      intro c hc
      exact List.all_eq_true.mp hk.2 c hc
    rw [serA]
    rw [hyphenate_lower k.data hklow]
    by_cases hv : (v == "") = true
    · rw [if_pos hv]
      have hv' : v = "" := by rwa [beq_iff_eq] at hv
      subst hv'
      rw [List.append_nil]
      rw [show (' ' :: k.data) ++ serA rest = ' ' :: (k.data ++ serA rest) from rfl]
      rw [scanAttrs_cons_space]
      rw [scanAttrs_key_flag k.data (serA rest) hkne hklow (serA_head rest)]
      rw [ih ha.2]
      rfl
    · rw [if_neg hv]
      rw [show ' ' :: k.data ++ ('=' :: '"' :: escapeData v.data true ++ ['"']) ++ serA rest =
        ' ' :: (k.data ++ '=' :: '"' :: escapeData v.data true ++ '"' :: serA rest) from by simp]
      rw [scanAttrs_cons_space]
      rw [scanAttrs_key_value k.data (escapeData v.data true) (serA rest) hkne hklow
        (escapeData_inline_no_quot v.data)]
      rw [ih ha.2]
      rfl

/-! ## Rebuilding the attribute dictionary -/

theorem dictSet_fresh (d : List (String × String)) (k v : String)
    (h : d.all (fun p => p.1 != k) = true) : dictSet d k v = d ++ [(k, v)] := by
  rw [dictSet, if_neg]
  intro hany
  rw [List.any_eq_true] at hany
  obtain ⟨p, hp, hpk⟩ := hany
  have := List.all_eq_true.mp h p hp
  rw [bne_iff_ne] at this
  rw [beq_iff_eq] at hpk
  exact this hpk

theorem foldl_dictSet : ∀ (a acc : List (String × String)),
    keysDistinct a = true →
    (∀ kv ∈ a, acc.all (fun p => p.1 != kv.1) = true) →
    a.foldl (fun d kv => dictSet d kv.1 kv.2) acc = acc ++ a := by
  intro a
  induction a with
  | nil => intro acc _ _; simp
  | cons kv rest ih =>
    intro acc hdist hacc
    obtain ⟨k, v⟩ := kv
    rw [keysDistinct, Bool.and_eq_true] at hdist
    rw [List.foldl_cons]
    rw [dictSet_fresh acc k v (hacc (k, v) (by simp))]
    rw [ih (acc ++ [(k, v)]) hdist.2]
    · simp
    · intro kv2 hkv2
      rw [List.all_append]
      rw [Bool.and_eq_true]
      refine ⟨hacc kv2 (by simp [hkv2]), ?_⟩
      simp only [List.all_cons, List.all_nil, Bool.and_true]
      have := List.all_eq_true.mp hdist.1 kv2 hkv2
      rwa [bne_iff_ne, ne_comm, ← bne_iff_ne] at this

theorem buildAttrs_recover_aux : ∀ (a acc : List (String × String)),
    a.all (fun kv => lcWord kv.1) = true →
    (a.map (fun kv => (kv.1.data, escapeData kv.2.data true))).foldl
      (fun d kv => dictSet d ⟨camelizeData kv.1⟩ (Element.unescape ⟨kv.2⟩)) acc =
    a.foldl (fun d kv => dictSet d kv.1 kv.2) acc := by
  intro a
  induction a with
  | nil => intro acc _; rfl
  | cons kv rest ih =>
    intro acc ha
    obtain ⟨k, v⟩ := kv
    simp only [List.all_cons, Bool.and_eq_true] at ha
    have hk := ha.1
    rw [lcWord, Bool.and_eq_true] at hk
    have hklow : ∀ c ∈ k.data, isAsciiLower c = true := fun c hc =>
      List.all_eq_true.mp hk.2 c hc
    simp only [List.map_cons, List.foldl_cons]
    rw [show dictSet acc ⟨camelizeData (k.data, escapeData v.data true).1⟩
        (Element.unescape ⟨(k.data, escapeData v.data true).2⟩) = dictSet acc k v from by
      show dictSet acc ⟨camelizeData k.data⟩ (Element.unescape ⟨escapeData v.data true⟩) =
        dictSet acc k v
      rw [camelize_lower k.data hklow]
      rw [show Element.unescape ⟨escapeData v.data true⟩ =
        ⟨unescapeData (escapeData v.data true)⟩ from rfl]
      rw [unescape_escapeData v.data true]]
    exact ih (dictSet acc k v) ha.2

theorem buildAttrs_recover (a : List (String × String))
    (ha : a.all (fun kv => lcWord kv.1) = true) (hd : keysDistinct a = true) :
    ((scanAttrs (serA a)).foldl
      (fun d kv => dictSet d ⟨camelizeData kv.1⟩ (Element.unescape ⟨kv.2⟩)) []) = a := by
  rw [scanAttrs_serA a ha]
  rw [buildAttrs_recover_aux a [] ha]
  rw [foldl_dictSet a [] hd (fun kv _ => rfl)]
  rfl

theorem tagTokOf_open (t : String) (a : List (String × String)) (empty : Bool)
    (ha : a.all (fun kv => lcWord kv.1) = true) (hd : keysDistinct a = true) :
    tagTokOf (false, t.data, serA a, empty) = .tag t false empty a := by
  rw [tagTokOf]
  rw [buildAttrs_recover a ha hd]

theorem tagTokOf_close (t : String) :
    tagTokOf (true, t.data, [], false) = .tag t true false [] := rfl

theorem make_fold_aux : ∀ (a acc : List (String × String)),
    (a.map (fun kv => (kv.1, Element.AttrArg.str kv.2))).foldl
      (fun d kv =>
        match kv with
        | (_, .nul) => d
        | (k, .tru) => dictSet d k ""
        | (k, .fls) => dictSet d ("no" ++ String.mk (capitalizeData k.data)) ""
        | (k, .str s) => dictSet d k s) acc =
    a.foldl (fun d kv => dictSet d kv.1 kv.2) acc := by
  intro a
  induction a with
  | nil => intro acc; rfl
  | cons kv rest ih =>
    intro acc
    obtain ⟨k, v⟩ := kv
    simp only [List.map_cons, List.foldl_cons]
    exact ih (dictSet acc k v)

theorem make_of_strs (t : String) (a : List (String × String)) (hd : keysDistinct a = true) :
    Element.make t (a.map (fun kv => (kv.1, .str kv.2))) [] = Element.mk t a [] := by
  rw [Element.make]
  rw [make_fold_aux a []]
  rw [foldl_dictSet a [] hd (fun kv _ => rfl)]
  rfl

/-! ## Tokenizing serialized forests -/

theorem serA_nil_iff (a : List (String × String)) (h : serA a = []) : a = [] := by
  rcases a with _ | ⟨⟨k, v⟩, rest⟩
  · rfl
  · rw [serA] at h
    simp at h

theorem serA_no_gt (a : List (String × String))
    (ha : a.all (fun kv => lcWord kv.1) = true) : ∀ c ∈ serA a, c ≠ '>' := by
  induction a with
  | nil => intro c hc; simp [serA] at hc
  | cons kv rest ih =>
    obtain ⟨k, v⟩ := kv
    simp only [List.all_cons, Bool.and_eq_true] at ha
    have hk := ha.1
    rw [lcWord, Bool.and_eq_true] at hk
    have hklow : ∀ c ∈ k.data, isAsciiLower c = true := fun c hc =>
      List.all_eq_true.mp hk.2 c hc
    intro c hc
    rw [serA] at hc
    rw [hyphenate_lower k.data hklow] at hc
    rcases List.mem_append.mp hc with h1 | h1
    · rcases List.mem_cons.mp h1 with h2 | h2
      · subst h2; decide
      · rcases List.mem_append.mp h2 with h3 | h3
        · exact (lower_facts (hklow c h3)).2.1
        · split at h3
          · simp at h3
          · rcases List.mem_cons.mp h3 with h4 | h4
            · subst h4; decide
            · rcases List.mem_cons.mp h4 with h5 | h5
              · subst h5; decide
              · rcases List.mem_append.mp h5 with h6 | h6
                · exact escapeData_no_gt v.data true c h6
                · simp at h6; subst h6; decide
    · exact ih ha.2 c h1

theorem serA_last (a : List (String × String))
    (ha : a.all (fun kv => lcWord kv.1) = true) :
    ∀ d, (serA a).getLast? = some d → jsWs d = false ∧ d ≠ '/' := by
  induction a with
  | nil => intro d hd; simp [serA] at hd
  | cons kv rest ih =>
    obtain ⟨k, v⟩ := kv
    simp only [List.all_cons, Bool.and_eq_true] at ha
    have hk := ha.1
    rw [lcWord, Bool.and_eq_true] at hk
    have hkne : k.data ≠ [] := by
      intro h0
      rw [h0] at hk
      simp at hk
    have hklow : ∀ c ∈ k.data, isAsciiLower c = true := fun c hc =>
      List.all_eq_true.mp hk.2 c hc
    intro d hd
    rw [serA] at hd
    by_cases hrest : serA rest = []
    · rw [hrest, List.append_nil] at hd
      rw [hyphenate_lower k.data hklow] at hd
      split at hd
      · rw [List.append_nil] at hd
        rw [show (' ' :: k.data : List Char) = [' '] ++ k.data from rfl] at hd
        rw [List.getLast?_append_of_ne_nil [' '] hkne] at hd
        obtain ⟨hne2, hl⟩ := List.mem_getLast?_eq_getLast (by rw [hd]; rfl)
        have hmem : d ∈ k.data := hl ▸ List.getLast_mem hne2
        have hf := lower_facts (hklow d hmem)
        exact ⟨hf.1, hf.2.2.2.1⟩
      · have hre : (' ' :: k.data ++ ('=' :: '"' :: escapeData v.data true ++ ['"']) : List Char) =
            (' ' :: k.data ++ '=' :: '"' :: escapeData v.data true) ++ ['"'] := by simp
        rw [hre, List.getLast?_concat] at hd
        simp only [Option.some.injEq] at hd
        subst hd
        exact ⟨by decide, by decide⟩
    · rw [List.getLast?_append_of_ne_nil _ hrest] at hd
      exact ih ha.2 d hd

/-- The leftmost tag match at the start of a serialized non-text node:
self-closing form. -/
theorem matchTagAt_serE_empty (t : String) (a : List (String × String)) (z : List Char)
    (hlow : lcWord t = true) (ha : a.all (fun kv => lcWord kv.1) = true) (hane : a ≠ []) :
    matchTagAt ('<' :: t.data ++ serA a ++ '/' :: '>' :: z) =
      some ((false, t.data, serA a, true), z) := by
  rw [lcWord, Bool.and_eq_true] at hlow
  have htne : t.data ≠ [] := by intro h0; rw [h0] at hlow; simp at hlow
  have htlow : ∀ c ∈ t.data, isAsciiLower c = true := fun c hc =>
    List.all_eq_true.mp hlow.2 c hc
  have hser : serA a ≠ [] := fun h0 => hane (serA_nil_iff a h0)
  have hmain := matchTagAt_generic t.data (serA a ++ ['/']) z htne htlow
    (by
      intro c hc
      rcases List.mem_append.mp hc with h1 | h1
      · exact serA_no_gt a ha c h1
      · simp at h1; subst h1; decide)
    (by
      right
      rcases serA_head a with h0 | ⟨r', hr⟩
      · exact absurd h0 hser
      · exact ⟨r' ++ ['/'], by rw [hr]; rfl⟩)
  rw [attrSplit_slash (serA a) (fun d hd => (serA_last a ha d hd).1)] at hmain
  rw [show '<' :: t.data ++ serA a ++ '/' :: '>' :: z =
    '<' :: (t.data ++ (serA a ++ ['/']) ++ '>' :: z) from by simp] at *
  exact hmain

/-- The leftmost tag match at the start of a serialized non-text node:
opening form (children present). -/
theorem matchTagAt_serE_open (t : String) (a : List (String × String)) (z : List Char)
    (hlow : lcWord t = true) (ha : a.all (fun kv => lcWord kv.1) = true) :
    matchTagAt ('<' :: t.data ++ serA a ++ '>' :: z) =
      some ((false, t.data, serA a, false), z) := by
  rw [lcWord, Bool.and_eq_true] at hlow
  have htne : t.data ≠ [] := by intro h0; rw [h0] at hlow; simp at hlow
  have htlow : ∀ c ∈ t.data, isAsciiLower c = true := fun c hc =>
    List.all_eq_true.mp hlow.2 c hc
  have hmain := matchTagAt_generic t.data (serA a) z htne htlow (serA_no_gt a ha)
    (by
      rcases serA_head a with h0 | ⟨r', hr⟩
      · exact Or.inl h0
      · exact Or.inr ⟨r', hr⟩)
  rw [attrSplit_plain (serA a) (serA_last a ha)] at hmain
  rw [show '<' :: t.data ++ serA a ++ '>' :: z =
    '<' :: (t.data ++ serA a ++ '>' :: z) from by simp] at *
  exact hmain

theorem matchTagAt_serE_isSome (t : String) (a : List (String × String)) (c : List Element)
    (z : List Char) (hwf : wfElem (.mk t a c) = true) (hty : ¬(t == "text") = true) :
    (matchTagAt (serE (.mk t a c) ++ z)).isSome = true := by
  rw [wfElem, if_neg hty] at hwf
  simp only [Bool.and_eq_true] at hwf
  obtain ⟨⟨⟨⟨hlc, hkeys⟩, hdist⟩, hnc⟩, hwfc⟩ := hwf
  rw [serE, if_neg hty]
  by_cases hc0 : c.isEmpty = true
  · rw [if_pos hc0]
    have hane : a ≠ [] := by
      rw [hc0] at hnc
      simp only [Bool.not_true, Bool.false_or, Bool.not_eq_true'] at hnc
      intro h0
      rw [h0] at hnc
      simp at hnc
    have hre : ('<' :: t.data ++ serA a ++ '/' :: '>' :: [] : List Char) ++ z =
        '<' :: t.data ++ serA a ++ '/' :: '>' :: z := by simp
    rw [hre, matchTagAt_serE_empty t a z hlc hkeys hane]
    rfl
  · rw [if_neg hc0]
    have hre : ('<' :: t.data ++ serA a ++
          ('>' :: serF c ++ '<' :: '/' :: t.data ++ ['>']) : List Char) ++ z =
        '<' :: t.data ++ serA a ++
          '>' :: (serF c ++ '<' :: '/' :: t.data ++ '>' :: z) := by simp
    rw [hre, matchTagAt_serE_open t a _ hlc hkeys]
    rfl

/-- Tokenizing a serialized well-formed node followed by arbitrary data
splits into the node's tokens followed by the tokens of the remainder;
for a text node the remainder must begin with a tag match (otherwise the
text runs would merge). -/
theorem tokenize_serE_mk (t : String) (a : List (String × String)) (c : List Element)
    (hc : wfForest c = true → ∀ z : List Char,
      (lastIsText c = true → (matchTagAt z).isSome = true) →
      tokenizeData (serF c ++ z) = toksF c ++ tokenizeData z)
    (hwf : wfElem (.mk t a c) = true) :
    ∀ z : List Char, (isTextNode (.mk t a c) = true → (matchTagAt z).isSome = true) →
      tokenizeData (serE (.mk t a c) ++ z) = toksE (.mk t a c) ++ tokenizeData z := by
  intro z hz
  rw [wfElem] at hwf
  by_cases hty : (t == "text") = true
  · -- text node
    rw [if_pos hty] at hwf
    rw [Bool.and_eq_true] at hwf
    obtain ⟨hta, hce⟩ := hwf
    rcases a with _ | ⟨⟨k, s⟩, arest⟩
    · simp [wfTextAttrs] at hta
    rcases arest with _ | ⟨a1, arest⟩
    swap
    · simp [wfTextAttrs] at hta
    simp only [wfTextAttrs, beq_iff_eq, Bool.and_eq_true, bne_iff_ne] at hta
    obtain ⟨hk, hs⟩ := hta
    subst hk
    have hmz : (matchTagAt z).isSome = true := by
      apply hz
      simp [isTextNode, Element.type, hty]
    rw [Option.isSome_iff_exists] at hmz
    obtain ⟨⟨rt, rem⟩, hp⟩ := hmz
    have hzne : z ≠ [] := by
      intro h0
      subst h0
      exact Option.noConfusion hp
    have hlook : ((List.lookup "content" [("content", s)]).getD "") = s := by
      simp [List.lookup]
    rw [serE, if_pos hty, toksE, if_pos hty, hlook]
    have hsne : s.data ≠ [] := by
      intro h0
      exact hs (String.ext h0)
    rw [tokenizeData_step]
    rw [findTag_skip _ z (escapeData_no_lt s.data false)]
    rw [findTag_match hp hzne]
    simp only [Option.map_some', List.append_nil]
    have hpre : (escapeData s.data false).isEmpty = false := by
      rcases h0 : escapeData s.data false with _ | ⟨c0, r0⟩
      · exact absurd h0 (escapeData_ne_nil s.data false hsne)
      · rfl
    rw [hpre]
    simp only [Bool.false_eq_true, if_false]
    have huns : Element.unescape ⟨escapeData s.data false⟩ = s := by
      rw [Element.unescape]
      show String.mk (unescapeData (escapeData s.data false)) = s
      rw [unescape_escapeData]
    rw [huns]
    have hz2 : tokenizeData z = tagTokOf rt :: tokenizeData rem := by
      rw [tokenizeData_step, findTag_match hp hzne]
      rfl
    rw [hz2]
  · -- generic tag
    rw [if_neg hty] at hwf
    simp only [Bool.and_eq_true] at hwf
    obtain ⟨⟨⟨⟨hlc, hkeys⟩, hdist⟩, hnc⟩, hwfc⟩ := hwf
    rw [serE, if_neg hty, toksE, if_neg hty]
    by_cases hc0 : c.isEmpty = true
    · rw [if_pos hc0, if_pos hc0]
      have hane : a ≠ [] := by
        rw [hc0] at hnc
        simp only [Bool.not_true, Bool.false_or, Bool.not_eq_true'] at hnc
        intro h0
        rw [h0] at hnc
        simp at hnc
      have hre : ('<' :: t.data ++ serA a ++ '/' :: '>' :: [] : List Char) ++ z =
          '<' :: t.data ++ serA a ++ '/' :: '>' :: z := by simp
      rw [hre]
      rw [tokenizeData_step]
      rw [findTag_match (matchTagAt_serE_empty t a z hlc hkeys hane) (by simp)]
      simp only [List.isEmpty_nil, if_true, List.nil_append]
      rw [tagTokOf_open t a true hkeys hdist]
      rfl
    · rw [if_neg hc0, if_neg hc0]
      have hre : ('<' :: t.data ++ serA a ++
            ('>' :: serF c ++ '<' :: '/' :: t.data ++ ['>']) : List Char) ++ z =
          '<' :: t.data ++ serA a ++
            '>' :: (serF c ++ ('<' :: '/' :: t.data ++ '>' :: z)) := by simp
      rw [hre]
      rw [tokenizeData_step]
      rw [findTag_match (matchTagAt_serE_open t a _ hlc hkeys) (by simp)]
      simp only [List.isEmpty_nil, if_true, List.nil_append]
      rw [tagTokOf_open t a false hkeys hdist]
      have hlct := hlc
      rw [lcWord, Bool.and_eq_true] at hlct
      have htne : t.data ≠ [] := by
        intro h0
        rw [h0] at hlct
        simp at hlct
      have htlow : ∀ d ∈ t.data, isAsciiLower d = true := fun d hd =>
        List.all_eq_true.mp hlct.2 d hd
      have hclose := matchTagAt_close t.data z htne htlow
      rw [hc hwfc ('<' :: '/' :: t.data ++ '>' :: z)
        (fun _ => by rw [show ('<' :: '/' :: t.data ++ '>' :: z : List Char) =
            '<' :: '/' :: (t.data ++ '>' :: z) from by simp, hclose]; rfl)]
      have hz3 : tokenizeData ('<' :: '/' :: t.data ++ '>' :: z) =
          PTok.tag t true false [] :: tokenizeData z := by
        rw [show ('<' :: '/' :: t.data ++ '>' :: z : List Char) =
          '<' :: '/' :: (t.data ++ '>' :: z) from by simp]
        rw [tokenizeData_step, findTag_match hclose (by simp)]
        simp [tagTokOf_close]
      rw [hz3]
      simp

theorem tokenize_serF_cons (e : Element) (es : List Element)
    (he : wfElem e = true → ∀ z : List Char,
      (isTextNode e = true → (matchTagAt z).isSome = true) →
      tokenizeData (serE e ++ z) = toksE e ++ tokenizeData z)
    (hes : wfForest es = true → ∀ z : List Char,
      (lastIsText es = true → (matchTagAt z).isSome = true) →
      tokenizeData (serF es ++ z) = toksF es ++ tokenizeData z)
    (hwf : wfForest (e :: es) = true) :
    ∀ z : List Char, (lastIsText (e :: es) = true → (matchTagAt z).isSome = true) →
      tokenizeData (serF (e :: es) ++ z) = toksF (e :: es) ++ tokenizeData z := by
  intro z hz
  rw [wfForest, Bool.and_eq_true, Bool.and_eq_true] at hwf
  obtain ⟨⟨hwe, hadj⟩, hwes⟩ := hwf
  rw [serF, toksF]
  rw [show (serE e ++ serF es) ++ z = serE e ++ (serF es ++ z) from by simp]
  rcases es with _ | ⟨e2, rest2⟩
  · rw [he hwe (serF [] ++ z) (fun hte => by
      rw [serF, List.nil_append]
      exact hz (by rw [lastIsText]; exact hte))]
    rw [hes rfl z (fun hl => by rw [lastIsText] at hl; exact absurd hl (by simp))]
    simp
  · have hcond : isTextNode e = true → (matchTagAt (serF (e2 :: rest2) ++ z)).isSome = true := by
      intro hte
      have hnt2 : isTextNode e2 = false := by
        rcases h2 : isTextNode e2 with _ | _
        · rfl
        · rw [hte] at hadj
          rw [show headIsText (e2 :: rest2) = isTextNode e2 from rfl, h2] at hadj
          simp at hadj
      have hwe2 : wfElem e2 = true := by
        rw [wfForest, Bool.and_eq_true, Bool.and_eq_true] at hwes
        exact hwes.1.1
      obtain ⟨t2, a2, c2⟩ := e2
      have hty2 : ¬(t2 == "text") = true := by
        rw [isTextNode] at hnt2
        rw [show Element.type (.mk t2 a2 c2) = t2 from rfl] at hnt2
        rw [hnt2]
        simp
      rw [serF]
      rw [show (serE (.mk t2 a2 c2) ++ serF rest2) ++ z =
        serE (.mk t2 a2 c2) ++ (serF rest2 ++ z) from by simp]
      exact matchTagAt_serE_isSome t2 a2 c2 _ hwe2 hty2
    rw [he hwe _ hcond]
    rw [hes hwes z (fun hl => hz (by rw [show lastIsText (e :: e2 :: rest2) =
      lastIsText (e2 :: rest2) from rfl]; exact hl))]
    simp

theorem tokenize_serF (f : List Element) (h : wfForest f = true) :
    ∀ z : List Char, (lastIsText f = true → (matchTagAt z).isSome = true) →
      tokenizeData (serF f ++ z) = toksF f ++ tokenizeData z :=
  elemIndF
    (fun e => wfElem e = true → ∀ z : List Char,
      (isTextNode e = true → (matchTagAt z).isSome = true) →
      tokenizeData (serE e ++ z) = toksE e ++ tokenizeData z)
    (fun f => wfForest f = true → ∀ z : List Char,
      (lastIsText f = true → (matchTagAt z).isSome = true) →
      tokenizeData (serF f ++ z) = toksF f ++ tokenizeData z)
    tokenize_serE_mk
    (fun _ z _ => by rw [serF, toksF, List.nil_append, List.nil_append])
    tokenize_serF_cons f h

/-- Tokenizing the full serialization of a well-formed top-level forest
recovers exactly its token list. -/
theorem tokenize_serF_top (f : List Element) (h : wfTop f = true) :
    tokenizeData (serF f) = toksF f := by
  rw [wfTop, Bool.and_eq_true] at h
  have h2 := tokenize_serF f h.1 []
    (fun hl => by
      rw [hl] at h
      simp at h)
  rw [List.append_nil] at h2
  rw [h2]
  rw [show tokenizeData [] = [] from rfl]
  rw [List.append_nil]

/-! ## Rebuilding a well-formed forest from its token list -/

theorem foldlM_stepTok_append (l1 l2 : List PTok) (st : List Element) :
    List.foldlM stepTok st (l1 ++ l2) =
      (List.foldlM stepTok st l1).bind (fun st2 => List.foldlM stepTok st2 l2) := by
  induction l1 generalizing st with
  | nil => simp
  | cons tok rest ih =>
    rw [List.cons_append, List.foldlM_cons, List.foldlM_cons]
    rcases h : stepTok st tok with _ | st2
    · simp
    · simpa using ih st2

/-- Feeding the token list of a well-formed node to the tree-building
loop appends exactly that node to the children of the top stack frame. -/
theorem buildStep_mk (t0 : String) (a0 : List (String × String)) (c0 : List Element)
    (hc : wfForest c0 = true → ∀ (t : String) (a : List (String × String))
      (c fs : List Element),
      List.foldlM stepTok (.mk t a c :: fs) (toksF c0) = some (.mk t a (c ++ c0) :: fs))
    (hwf : wfElem (.mk t0 a0 c0) = true) :
    ∀ (t : String) (a : List (String × String)) (c fs : List Element),
      List.foldlM stepTok (.mk t a c :: fs) (toksE (.mk t0 a0 c0)) =
        some (.mk t a (c ++ [Element.mk t0 a0 c0]) :: fs) := by
  intro t a c fs
  rw [wfElem] at hwf
  by_cases hty : (t0 == "text") = true
  · rw [if_pos hty] at hwf
    rw [Bool.and_eq_true] at hwf
    obtain ⟨hta, hce⟩ := hwf
    rcases a0 with _ | ⟨⟨k, s⟩, arest⟩
    · simp [wfTextAttrs] at hta
    rcases arest with _ | ⟨a1, arest⟩
    swap
    · simp [wfTextAttrs] at hta
    simp only [wfTextAttrs, beq_iff_eq, Bool.and_eq_true, bne_iff_ne] at hta
    obtain ⟨hk, hs⟩ := hta
    subst hk
    have hc00 : c0 = [] := by
      rcases c0 with _ | ⟨x, xs⟩
      · rfl
      · simp at hce
    subst hc00
    have hlook : ((List.lookup "content" [("content", s)]).getD "") = s := by
      simp [List.lookup]
    rw [toksE, if_pos hty, hlook]
    have hty' : t0 = "text" := by rwa [beq_iff_eq] at hty
    subst hty'
    have hte : Element.toElement s = Element.mk "text" [("content", s)] [] := by
      rw [Element.toElement]
      rw [show [("content", Element.AttrArg.str s)] =
        [("content", s)].map (fun kv => (kv.1, Element.AttrArg.str kv.2)) from rfl]
      rw [make_of_strs "text" [("content", s)] rfl]
    have hstep : stepTok (Element.mk t a c :: fs) (PTok.text s) =
        some (Element.mk t a (c ++ [Element.mk "text" [("content", s)] []]) :: fs) := by
      show some (Element.mk t a (c ++ [Element.toElement s]) :: fs) = _
      rw [hte]
    rw [List.foldlM_cons, hstep]
    simp
  · rw [if_neg hty] at hwf
    simp only [Bool.and_eq_true] at hwf
    obtain ⟨⟨⟨⟨hlc, hkeys⟩, hdist⟩, hnc⟩, hwfc⟩ := hwf
    rw [toksE, if_neg hty]
    by_cases hc0e : c0.isEmpty = true
    · rw [if_pos hc0e]
      have hc00 : c0 = [] := by
        rcases c0 with _ | ⟨x, xs⟩
        · rfl
        · simp at hc0e
      subst hc00
      have hstep : stepTok (Element.mk t a c :: fs) (PTok.tag t0 false true a0) =
          some (Element.mk t a (c ++ [Element.mk t0 a0 []]) :: fs) := by
        show some (Element.mk t a (c ++
          [Element.make t0 (a0.map (fun kv => (kv.1, Element.AttrArg.str kv.2))) []]) :: fs) = _
        rw [make_of_strs t0 a0 hdist]
      rw [List.foldlM_cons, hstep]
      simp
    · rw [if_neg hc0e]
      rw [List.foldlM_cons]
      have hstep1 : stepTok (Element.mk t a c :: fs) (PTok.tag t0 false false a0) =
          some (Element.mk t0 a0 [] :: Element.mk t a c :: fs) := by
        show some (Element.make t0 (a0.map (fun kv => (kv.1, Element.AttrArg.str kv.2))) [] ::
          Element.mk t a c :: fs) = _
        rw [make_of_strs t0 a0 hdist]
      rw [hstep1]
      show List.foldlM stepTok (Element.mk t0 a0 [] :: Element.mk t a c :: fs)
        (toksF c0 ++ [PTok.tag t0 true false []]) = _
      rw [foldlM_stepTok_append]
      rw [hc hwfc t0 a0 [] (Element.mk t a c :: fs)]
      rw [show ([] : List Element) ++ c0 = c0 from List.nil_append c0]
      show List.foldlM stepTok (Element.mk t0 a0 c0 :: Element.mk t a c :: fs)
        [PTok.tag t0 true false []] = _
      rw [List.foldlM_cons]
      rw [show stepTok (Element.mk t0 a0 c0 :: Element.mk t a c :: fs)
        (PTok.tag t0 true false []) =
        some (Element.mk t a (c ++ [Element.mk t0 a0 c0]) :: fs) from rfl]
      simp

theorem buildStep_cons (e : Element) (es : List Element)
    (he : wfElem e = true → ∀ (t : String) (a : List (String × String)) (c fs : List Element),
      List.foldlM stepTok (.mk t a c :: fs) (toksE e) = some (.mk t a (c ++ [e]) :: fs))
    (hes : wfForest es = true → ∀ (t : String) (a : List (String × String)) (c fs : List Element),
      List.foldlM stepTok (.mk t a c :: fs) (toksF es) = some (.mk t a (c ++ es) :: fs))
    (hwf : wfForest (e :: es) = true) :
    ∀ (t : String) (a : List (String × String)) (c fs : List Element),
      List.foldlM stepTok (.mk t a c :: fs) (toksF (e :: es)) =
        some (.mk t a (c ++ (e :: es)) :: fs) := by
  intro t a c fs
  rw [wfForest, Bool.and_eq_true, Bool.and_eq_true] at hwf
  rw [toksF, foldlM_stepTok_append, he hwf.1.1 t a c fs]
  show List.foldlM stepTok (Element.mk t a (c ++ [e]) :: fs) (toksF es) = _
  rw [hes hwf.2 t a (c ++ [e]) fs]
  simp

theorem buildTree_toksF_any (f : List Element) (h : wfForest f = true) :
    ∀ (t : String) (a : List (String × String)) (c fs : List Element),
      List.foldlM stepTok (.mk t a c :: fs) (toksF f) = some (.mk t a (c ++ f) :: fs) :=
  elemIndF
    (fun e => wfElem e = true → ∀ (t : String) (a : List (String × String))
      (c fs : List Element),
      List.foldlM stepTok (.mk t a c :: fs) (toksE e) = some (.mk t a (c ++ [e]) :: fs))
    (fun f => wfForest f = true → ∀ (t : String) (a : List (String × String))
      (c fs : List Element),
      List.foldlM stepTok (.mk t a c :: fs) (toksF f) = some (.mk t a (c ++ f) :: fs))
    buildStep_mk
    (fun _ t a c fs => by rw [toksF]; simp)
    buildStep_cons f h

/-- Building the tree from a well-formed forest's token list recovers the
forest. -/
theorem buildTree_toksF (f : List Element) (h : wfForest f = true) :
    buildTree (toksF f) = some f := by
  rw [buildTree]
  rw [buildTree_toksF_any f h "" [] [] []]
  show some (([] : List Element) ++ f) = some f
  rw [List.nil_append]

/-- `parse` inverts the reference serialization of a well-formed
top-level forest. -/
theorem parse_serF (f : List Element) (h : wfTop f = true) :
    Element.parse ⟨serF f⟩ = some f := by
  have hwf : wfForest f = true := by
    rw [wfTop, Bool.and_eq_true] at h
    exact h.1
  rw [Element.parse]
  show parseData (serF f) = some f
  rw [parseData, tokenize_serF_top f h, buildTree_toksF f hwf]

/-- Claim C5, amended: for every well-formed forest — element types
nonempty lowercase words other than the reserved `text`, attribute keys
nonempty distinct lowercase words, text nodes carrying exactly a nonempty
`content` attribute and no children, no childless element with an empty
attribute list, no two adjacent text siblings, and a non-text final
top-level node — parsing the concatenation of the forest's `toString`
serializations yields a forest structurally equal to the original.  The
counterexample shows the claim as stated fails already for
`[Element('a')]`. -/
theorem claim_C5_amended (f : List Element) (h : wfTop f = true) :
    (Element.forestJoin f).bind Element.parse = some f := by
  have hwf : wfForest f = true := by
    rw [wfTop, Bool.and_eq_true] at h
    exact h.1
  rw [forestJoin_serF f hwf]
  show Element.parse ⟨serF f⟩ = some f
  exact parse_serF f h

/-- Witness for the amended claim C5: the forest
`<p k="v">x&amp;y<i f/></p>` — an element with an attribute, an escapable
text child, and a childless flagged child — satisfies the well-formedness
conditions and round-trips. -/
theorem claim_C5_amended_witness :
    wfTop [Element.mk "p" [("k", "v")] [Element.mk "text" [("content", "x&y")] [],
      Element.mk "i" [("f", "")] []]] = true ∧
    (Element.forestJoin [Element.mk "p" [("k", "v")]
        [Element.mk "text" [("content", "x&y")] [],
         Element.mk "i" [("f", "")] []]]).bind Element.parse =
      some [Element.mk "p" [("k", "v")] [Element.mk "text" [("content", "x&y")] [],
        Element.mk "i" [("f", "")] []]] :=
  ⟨by decide, claim_C5_amended _ (by decide)⟩
